import Mathlib

/-!
# Verification of the QA_helper comparison engine

Shallow embedding of the core comparison/matching engine of the QA_helper
repository (`app_modules/text_utils.py`, `app_modules/matching_utils.py`,
`app_modules/dash_logic.py`, and the diff reporter of `app.py` /
`dash_app.py`), together with proofs settling the frozen claims about it.

Strings are embedded as `List Char` (Python `str` is a sequence of Unicode
code points, exactly what `List Char` is).  Pandas dataframes are embedded
as lists of records, Python dicts as association lists looked up
first-match-first (Python dicts have unique keys, so the lookup direction
is irrelevant; where a dict comprehension overwrites on duplicate keys the
embedding models last-writer-wins explicitly).
-/

set_option maxRecDepth 40000

namespace QAHelper

/-! ## Character classes

`isPyWs` is the set of characters Python's `str.strip()` (and `re`'s `\s`
on `str` patterns) treats as whitespace: the ASCII whitespace characters
and the Unicode space/line separators. -/

def isPyWs (c : Char) : Bool :=
  c.toNat = 32 || (9 ≤ c.toNat && c.toNat ≤ 13) ||
  (28 ≤ c.toNat && c.toNat ≤ 31) || c.toNat = 133 || c.toNat = 160 ||
  c.toNat = 5760 || (8192 ≤ c.toNat && c.toNat ≤ 8202) ||
  c.toNat = 8232 || c.toNat = 8233 || c.toNat = 8239 || c.toNat = 8287 ||
  c.toNat = 12288

/-- The character class of the regex `[ \t]` used in `normalize_text`. -/
def isSpaceTab (c : Char) : Bool :=
  c = ' ' || c = '\t'

def isQuoteChar (c : Char) : Bool :=
  c = '\'' || c = '"'

/-! ## Primitive string operations -/

/-- Python `text.replace(target, "")` for a single-character target. -/
def removeChar (target : Char) (l : List Char) : List Char :=
  l.filter (fun c => c ≠ target)

/-- Python `text.replace(source, target)` for single characters. -/
def mapChar (source target : Char) (l : List Char) : List Char :=
  l.map (fun c => if c = source then target else c)

/-- Python `text.replace("\r\n", "\n")`: non-overlapping occurrences of the
two-character pattern replaced left to right. -/
def replaceCRLF : List Char → List Char
  | [] => []
  | [c] => [c]
  | c :: d :: t =>
    if c = '\r' ∧ d = '\n' then '\n' :: replaceCRLF t
    else c :: replaceCRLF (d :: t)

/-- Python `text.strip()`: drop leading and trailing whitespace. -/
def pyStrip (l : List Char) : List Char :=
  List.rdropWhile isPyWs (List.dropWhile isPyWs l)

/-- Python `re.sub(r"<class>+", " ", text)` for a character class `p`:
every maximal run of `p`-characters is replaced by a single space (the
space is emitted at the last character of each run). -/
def collapseRuns (p : Char → Bool) : List Char → List Char
  | [] => []
  | [c] => if p c then [' '] else [c]
  | c :: d :: t =>
    if p c then
      (if p d then collapseRuns p (d :: t) else ' ' :: collapseRuns p (d :: t))
    else c :: collapseRuns p (d :: t)

/-- The condition of the final step of `normalize_text`:
`len(text) >= 2 and text[0] == text[-1] and text[0] in ["'", '"']`. -/
def quoteCondB (l : List Char) : Bool :=
  decide (2 ≤ l.length) && (l.head? == l.getLast?) && l.head?.any isQuoteChar

/-- The final step of `normalize_text`: if the string is enclosed in one
matched pair of identical quote characters, strip that pair
(`text[1:-1]`) and strip whitespace again.  Single pass, not recursive. -/
def stripQuotePair (l : List Char) : List Char :=
  if quoteCondB l then pyStrip l.tail.dropLast else l

/-! ## `text_utils.normalize_text`

Embeds `normalize_text` (src/app_modules/text_utils.py, lines 8-26) on
string input.  The `None` / float-NaN branches return `""` and are the
caller's concern; the embedding takes the already-stringified value. -/

def normalize_text (l : List Char) : List Char :=
  stripQuotePair (collapseRuns isSpaceTab (pyStrip
    (mapChar '‘' '\'' (mapChar '’' '\'' (mapChar '”' '"' (mapChar '“' '"'
      (mapChar '\u00A0' ' ' (mapChar '\r' '\n' (replaceCRLF
        (removeChar '\u200B' (removeChar '\uFEFF' l)))))))))))

/-- Two-step structural induction on character lists, matching the
recursion pattern of `replaceCRLF` and `collapseRuns`. -/
def twoStepInduction {motive : List Char → Prop} (nil : motive [])
    (single : ∀ c, motive [c])
    (cons2 : ∀ c d t, motive t → motive (d :: t) → motive (c :: d :: t)) :
    ∀ l, motive l
  | [] => nil
  | [c] => single c
  | c :: d :: t => cons2 c d t (twoStepInduction nil single cons2 t)
      (twoStepInduction nil single cons2 (d :: t))

/-- No character that `normalize_text` removes or replaces survives in
its output: no BOM, no zero-width space, no carriage return, no no-break
space, no curly quote. -/
def NoBadChars (l : List Char) : Prop :=
  ∀ c ∈ l, c ≠ '\uFEFF' ∧ c ≠ '\u200B' ∧ c ≠ '\r' ∧ c ≠ '\u00A0' ∧
    c ≠ '“' ∧ c ≠ '”' ∧ c ≠ '’' ∧ c ≠ '‘'

/-- No leading or trailing Python whitespace. -/
def Stripped (l : List Char) : Prop :=
  (∀ c ∈ l.head?, isPyWs c = false) ∧ (∀ c ∈ l.getLast?, isPyWs c = false)

/-- No tab and no two adjacent space/tab characters: the normal form of
`re.sub(r"[ \t]+", " ", ·)`. -/
def STCollapsed (l : List Char) : Prop :=
  '\t' ∉ l ∧
    l.Chain' (fun a b => ¬(isSpaceTab a = true ∧ isSpaceTab b = true))

/-- Whitespace fully collapsed to single interior spaces: the normal
form of `re.sub(r"\s+", " ", ·)`. -/
def WsCollapsed (l : List Char) : Prop :=
  (∀ c ∈ l, isPyWs c = true → c = ' ') ∧
    l.Chain' (fun a b => ¬(isPyWs a = true ∧ isPyWs b = true))

/-! ## `text_utils.canonical_key` -/

/-- Modelled from the library call `unicodedata.normalize("NFKC", text)`
in `canonical_key`: a character-wise table covering the compatibility
characters this tool can meet (fullwidth ASCII forms, the ideographic
space and the no-break space); NFKC is the identity on the ASCII,
Hangul-syllable and Cyrillic text the tool processes. -/
def nfkcChar (c : Char) : Char :=
  if 0xFF01 ≤ c.toNat ∧ c.toNat ≤ 0xFF5E then Char.ofNat (c.toNat - 0xFEE0)
  else if c.toNat = 0x3000 then ' '
  else if c.toNat = 0xA0 then ' '
  else c

/-- Modelled from Python `str.lower()` character-wise, covering the
scripts this tool processes (ASCII and Cyrillic; Korean has no case). -/
def pyLowerChar (c : Char) : Char :=
  if 65 ≤ c.toNat ∧ c.toNat ≤ 90 then Char.ofNat (c.toNat + 32)
  else if 1040 ≤ c.toNat ∧ c.toNat ≤ 1071 then Char.ofNat (c.toNat + 32)
  else if c.toNat = 1025 then Char.ofNat 1105
  else c

/-- Embeds `canonical_key` (src/app_modules/text_utils.py, lines 29-34):
normalize, NFKC, newlines to spaces, collapse `\s+`, strip, lowercase. -/
def canonical_key (l : List Char) : List Char :=
  (pyStrip (collapseRuns isPyWs (mapChar '\n' ' '
    ((normalize_text l).map nfkcChar)))).map pyLowerChar

/-- Embeds `normalize_header_name` (src/app_modules/text_utils.py, lines
39-41): `str(name).strip().lower()` then remove everything outside
`[a-z0-9가-힣]`. -/
def isHeaderKeep (c : Char) : Bool :=
  (97 ≤ c.toNat && c.toNat ≤ 122) || (48 ≤ c.toNat && c.toNat ≤ 57) ||
  (44032 ≤ c.toNat && c.toNat ≤ 55203)

def normalize_header_name (l : List Char) : List Char :=
  ((pyStrip l).map pyLowerChar).filter isHeaderKeep

/-! ## `matching_utils`: match evaluation -/

/-- Match-state strings used by the evaluators. -/
def noFileStr : List Char := "파일없음".toList

def yStr : List Char := "Y".toList

def nStr : List Char := "N".toList

/-- Python `text.split(",")`: split on every comma; the empty string
splits to `[""]`. -/
def splitComma : List Char → List (List Char)
  | [] => [[]]
  | c :: rest =>
    if c = ',' then [] :: splitComma rest
    else
      match splitComma rest with
      | [] => [[c]]
      | h :: t => (c :: h) :: t

/-- Embeds `_candidate_tuple` (src/app_modules/matching_utils.py, lines
79-83): split the joined dictionary value on commas, normalize each
piece, drop empty pieces.  The Python `lru_cache` is a pure memo with no
observable effect. -/
def candidateList (joined : List Char) : List (List Char) :=
  ((splitComma joined).map normalize_text).filter (fun x => x ≠ [])

/-- Embeds `evaluate_binary_match` (src/app_modules/matching_utils.py,
lines 66-76). -/
def evaluate_binary_match (dictVal jsonVal : List Char) : List Char :=
  let left := normalize_text dictVal
  let right := normalize_text jsonVal
  if right = [] then noFileStr
  else if left = [] then nStr
  else if right ∈ candidateList left then yStr else nStr

/-- Embeds `evaluate_overall_match` (src/app_modules/matching_utils.py,
lines 86-90): `"파일없음" in states` is the three-way disjunction. -/
def evaluate_overall_match (ko en ru : List Char) : List Char :=
  if ko = noFileStr ∨ en = noFileStr ∨ ru = noFileStr then noFileStr
  else if ko = yStr ∧ en = yStr ∧ ru = yStr then yStr else nStr

/-- Embeds `unique_join` (src/app_modules/matching_utils.py, lines 51-57):
normalize each value, keep nonempty first occurrences, join with ", ". -/
def unique_join (values : List (List Char)) : List Char :=
  List.intercalate ", ".toList
    (values.foldl (fun merged value =>
      let normalized := normalize_text value
      if normalized ≠ [] ∧ normalized ∉ merged then merged ++ [normalized]
      else merged) [])

/-! ## `matching_utils.guess_column`

The fuzzy stage uses `difflib.SequenceMatcher(None, a, b).ratio()`:
Ratcliff/Obershelp similarity.  `find_longest_match` returns the longest
matching contiguous block, earliest in `a` then earliest in `b` among
ties; the ratio is `2*M/T` where `M` is the total size of all matching
blocks found recursively and `T` the sum of the lengths (for `T = 0` the
ratio is `1.0`).  The ratio is kept as an exact pair `(2*M, T)` and
compared by cross-multiplication; for the string lengths involved the
Python float comparison agrees with the exact rational comparison
(distinct ratios differ by at least `1/T²`, far above one ulp).  The
model omits the autojunk heuristic, which only fires for strings of
length ≥ 200. -/

def commonPrefixLen : List Char → List Char → Nat
  | a :: as, b :: bs => if a = b then commonPrefixLen as bs + 1 else 0
  | _, _ => 0

/-- The longest matching block `(i, j, size)` between `a` and `b`:
maximal size, then smallest `i`, then smallest `j`. -/
def bestBlock (a b : List Char) : Nat × Nat × Nat :=
  (List.range a.length).foldl (fun best i =>
    (List.range b.length).foldl (fun best j =>
      let k := commonPrefixLen (a.drop i) (b.drop j)
      if best.2.2 < k then (i, j, k) else best) best) (0, 0, 0)

/-- Total size of all matching blocks (the recursion of
`get_matching_blocks`), with fuel; `a.length + b.length + 1` fuel always
suffices since each recursion level consumes a nonempty block. -/
def matchTotal : Nat → List Char → List Char → Nat
  | 0, _, _ => 0
  | fuel + 1, a, b =>
    let ijk := bestBlock a b
    if ijk.2.2 = 0 then 0
    else ijk.2.2 + matchTotal fuel (a.take ijk.1) (b.take ijk.2.1) +
      matchTotal fuel (a.drop (ijk.1 + ijk.2.2)) (b.drop (ijk.2.1 + ijk.2.2))

/-- `SequenceMatcher(None, a, b).ratio()` as an exact rational
`(numerator, denominator)`; `(1, 1)` for two empty strings. -/
def smRatio (a b : List Char) : Nat × Nat :=
  if a.length + b.length = 0 then (1, 1)
  else (2 * matchTotal (a.length + b.length + 1) a b, a.length + b.length)

/-- Exact comparison `p < q` of two ratios by cross-multiplication. -/
def scoreLT (p q : Nat × Nat) : Bool :=
  p.1 * q.2 < q.1 * p.2

/-- Lookup in a Python dict comprehension `{f(c): c for c in cols}`:
on duplicate derived keys the last column wins. -/
def dictLastLookup (f : List Char → List Char) (cols : List (List Char))
    (key : List Char) : Option (List Char) :=
  List.find? (fun c => f c = key) cols.reverse

/-- Python `str(c).strip().lower()` used for the case-insensitive stage. -/
def lowerTrimKey (l : List Char) : List Char :=
  (pyStrip l).map pyLowerChar

/-- The `scored` list of `guess_column`: for every candidate with
nonempty normalized name and every column with nonempty normalized name,
in enumeration order, the pair (ratio, column). -/
def scoredPairs (cols cands : List (List Char)) :
    List ((Nat × Nat) × List Char) :=
  cands.flatMap (fun cand =>
    let nc := normalize_header_name cand
    if nc = [] then []
    else cols.filterMap (fun col =>
      let ncol := normalize_header_name col
      if ncol = [] then none
      else some (smRatio nc ncol, col)))

/-- Stable insertion into a descending-sorted list: the new element goes
before the first element of strictly smaller score, hence after every
element of score ≥ its own (ties keep the earlier element first). -/
def insertDesc (x : (Nat × Nat) × List Char) :
    List ((Nat × Nat) × List Char) → List ((Nat × Nat) × List Char)
  | [] => [x]
  | y :: t => if scoreLT y.1 x.1 then x :: y :: t else y :: insertDesc x t

/-- Python `scored.sort(key=lambda x: x[0], reverse=True)`: stable sort,
descending by score, ties keep enumeration order. -/
def sortScoredDesc (l : List ((Nat × Nat) × List Char)) :
    List ((Nat × Nat) × List Char) :=
  l.foldl (fun acc x => insertDesc x acc) []

/-- Embeds `guess_column` (src/app_modules/matching_utils.py, lines
11-48): exact hit, then case-insensitive trimmed hit, then
header-normalized hit, then the fuzzy stage with threshold `0.78`
(`100 * num ≥ 78 * den` exactly). -/
def guess_column (cols cands : List (List Char)) : Option (List Char) :=
  match List.find? (fun cand => cols.contains cand) cands with
  | some cand => some cand
  | none =>
  match List.findSome? (fun cand =>
      dictLastLookup lowerTrimKey cols (lowerTrimKey cand)) cands with
  | some col => some col
  | none =>
  match List.findSome? (fun cand =>
      dictLastLookup normalize_header_name cols (normalize_header_name cand)) cands with
  | some col => some col
  | none =>
    match sortScoredDesc (scoredPairs cols cands) with
    | [] => none
    | best :: _ => if 78 * best.1.2 ≤ 100 * best.1.1 then some best.2 else none

/-! ## `dash_logic`: lookup index and value lookup

A Python dict is embedded as an association list in insertion order with
pairwise-distinct keys; membership and `get` are first-match lookups. -/

abbrev StrMap := List (List Char × List Char)

def mapFind (m : StrMap) (k : List Char) : Option (List Char) :=
  Option.map (fun p => p.2) (List.find? (fun p => p.1 = k) m)

/-- The variant expansion shared by `build_lookup_index` and
`get_json_value` (src/app_modules/dash_logic.py, lines 97-108 and
120-131): raw, normalized, both trimmed, both lowercased, both
canonicalized, in the candidate-list order of `get_json_value`.
`build_lookup_index` iterates these as a Python `set`, whose iteration
order is unspecified; since every variant of one entry maps to the same
value, the resulting index mapping does not depend on that order. -/
def keyVariants (k : List Char) : List (List Char) :=
  let k1 := normalize_text k
  [k, k1, pyStrip k, pyStrip k1, k.map pyLowerChar, k1.map pyLowerChar,
   canonical_key k, canonical_key k1]

/-- Embeds `build_lookup_index` (src/app_modules/dash_logic.py, lines
93-113): for each entry insert every nonempty key variant mapped to the
normalized value, first writer wins. -/
def build_lookup_index (sourceMap : StrMap) : StrMap :=
  sourceMap.foldl (fun index entry =>
    let v := normalize_text entry.2
    ((keyVariants entry.1).filter (fun x => x ≠ [])).foldl (fun index kk =>
      if (mapFind index kk).isSome then index else index ++ [(kk, v)]) index) []

/-- Embeds `get_json_value` (src/app_modules/dash_logic.py, lines
119-137): for each candidate variant in order, try the raw map first,
then the index; normalize and return the first hit, else empty. -/
def get_json_value (sourceMap lookup : StrMap) (key : List Char) : List Char :=
  match List.findSome? (fun c =>
      match mapFind sourceMap c with
      | some v => some v
      | none => mapFind lookup c) (keyVariants key) with
  | some v => normalize_text v
  | none => []

/-! ## `dash_logic.build_compare_dataframe`

The dictionary dataframe is embedded as a list of rows each carrying the
four guessed columns (module / English / Korean / Russian); the column
indirection through `module_col` .. `russian_col` is resolved by the
caller and is plumbing.  Pandas operations are embedded row-wise:
`groupby(..., sort=False).agg(unique_join)` groups by first-seen key
order and joins each group's values in row order; the left merge emits
one row per matching pair and a NaN row (here: empty fields) when the
key has no group. -/

structure DictRow where
  module : List Char
  english : List Char
  korean : List Char
  russian : List Char
deriving DecidableEq

/-- Normalization of the four columns (lines 140-143). -/
def normRow (r : DictRow) : DictRow :=
  ⟨normalize_text r.module, normalize_text r.english,
   normalize_text r.korean, normalize_text r.russian⟩

/-- Rows kept after dropping empty normalized English (line 144). -/
def filteredRows (rows : List DictRow) : List DictRow :=
  (rows.map normRow).filter (fun r => r.english ≠ [])

/-- Python `dict.fromkeys`: first-seen deduplication. -/
def dedupKeepFirst (l : List (List Char)) : List (List Char) :=
  l.foldl (fun acc x => if x ∈ acc then acc else acc ++ [x]) []

/-- `dictionary_order` (line 146). -/
def dictionaryOrder (rows : List DictRow) : List (List Char) :=
  dedupKeepFirst ((filteredRows rows).map (fun r => r.english))

structure GroupRow where
  mainModule : List Char
  english : List Char
  korean : List Char
  russian : List Char
deriving DecidableEq

/-- `grouped_df` (lines 148-160): one group per distinct normalized
English in first-seen order, module/Korean/Russian unique-joined. -/
def groupedRows (rows : List DictRow) : List GroupRow :=
  (dictionaryOrder rows).map (fun k =>
    let grp := (filteredRows rows).filter (fun r => r.english = k)
    ⟨unique_join (grp.map (fun r => r.module)), k,
     unique_join (grp.map (fun r => r.korean)),
     unique_join (grp.map (fun r => r.russian))⟩)

/-- One iteration of `append_order` (lines 165-170): normalize the key,
append it when nonempty and not yet seen; the accumulator is exactly the
seen set. -/
def appendOrderStep (acc : List (List Char)) (key : List Char) :
    List (List Char) :=
  let k := normalize_text key
  if k ≠ [] ∧ k ∉ acc then acc ++ [k] else acc

/-- `append_order` (lines 165-170). -/
def appendOrder (acc : List (List Char)) (keys : List (List Char)) :
    List (List Char) :=
  keys.foldl appendOrderStep acc

/-- `ordered_keys` (lines 162-176): dictionary order, then ko-map keys,
then ru-map keys, then (only when `include_en_keys`) en-map keys. -/
def orderedKeysOf (rows : List DictRow) (koMap ruMap enMap : StrMap)
    (includeEnKeys : Bool) : List (List Char) :=
  let afterDict := appendOrder [] (dictionaryOrder rows)
  let afterKo := appendOrder afterDict (koMap.map (fun p => p.1))
  let afterRu := appendOrder afterKo (ruMap.map (fun p => p.1))
  if includeEnKeys then appendOrder afterRu (enMap.map (fun p => p.1))
  else afterRu

/-- Position of the first occurrence of `k`; `fixed_seq_map` (line 178)
maps each ordered key to this position plus one. -/
def firstPos (k : List Char) : List (List Char) → Nat
  | [] => 0
  | x :: rest => if x = k then 0 else firstPos k rest + 1

/-- One output row of the compare table, in the final column order
(lines 215-232). -/
structure CompareRecord where
  seq : Nat
  key : List Char
  source : List Char
  mainModule : List Char
  dictEnglish : List Char
  dictKorean : List Char
  dictRussian : List Char
  enJson : List Char
  koJson : List Char
  ruJson : List Char
  koMatch : List Char
  enMatch : List Char
  ruMatch : List Char
  overallMatch : List Char
  editStatus : List Char
  editTime : List Char
deriving DecidableEq

def bothStr : List Char := "양쪽".toList

def jsonOnlyStr : List Char := "JSON만".toList

/-- The merge and per-column computations (lines 179-204) for one key:
`순번` from `fixed_seq_map`, the left-merged group columns re-normalized
(lines 185-190), the three json lookups, the origin label (lines
196-202), and empty edit fields; match columns are filled by
`recompute_match_record` afterwards, as in the source. -/
def mergedRecords (rows : List DictRow) (koMap ruMap enMap : StrMap)
    (includeEnKeys : Bool) : List CompareRecord :=
  let okeys := orderedKeysOf rows koMap ruMap enMap includeEnKeys
  let groups := groupedRows rows
  let enLookup := build_lookup_index enMap
  let koLookup := build_lookup_index koMap
  let ruLookup := build_lookup_index ruMap
  let dictKeys := dictionaryOrder rows
  okeys.flatMap (fun k =>
    let seq := firstPos k okeys + 1
    let enV := get_json_value enMap enLookup k
    let koV := get_json_value koMap koLookup k
    let ruV := get_json_value ruMap ruLookup k
    let src := if normalize_text k ∈ dictKeys then bothStr else jsonOnlyStr
    match groups.filter (fun g => g.english = k) with
    | [] => [⟨seq, k, src, [], [], [], [], enV, koV, ruV, [], [], [], [], [], []⟩]
    | gs => gs.map (fun g =>
        ⟨seq, k, src, normalize_text g.mainModule, normalize_text g.english,
         normalize_text g.korean, normalize_text g.russian,
         enV, koV, ruV, [], [], [], [], [], []⟩))

/-- Embeds `recompute_match_columns` (src/app_modules/matching_utils.py,
lines 93-118) on one row: the three per-language matches and the inlined
overall aggregation of lines 105-112. -/
def recompute_match_record (r : CompareRecord) : CompareRecord :=
  let ko := evaluate_binary_match r.dictKorean r.koJson
  let en := evaluate_binary_match r.dictEnglish r.enJson
  let ru := evaluate_binary_match r.dictRussian r.ruJson
  let overall :=
    if ko = noFileStr ∨ en = noFileStr ∨ ru = noFileStr then noFileStr
    else if ko = yStr ∧ en = yStr ∧ ru = yStr then yStr else nStr
  { r with koMatch := ko, enMatch := en, ruMatch := ru, overallMatch := overall }

/-- Code-point lexicographic order on strings (Python `str` `<`). -/
def lexLT : List Char → List Char → Bool
  | [], [] => false
  | [], _ :: _ => true
  | _ :: _, [] => false
  | a :: as, b :: bs => if a < b then true else if b < a then false else lexLT as bs

/-- The sort key comparison of lines 207-213: ascending by (module is
blank, normalized module, sequence number); blank modules last. -/
def rowSortLE (r s : CompareRecord) : Bool :=
  let rm := normalize_text r.mainModule
  let sm := normalize_text s.mainModule
  if rm.isEmpty = sm.isEmpty then
    (if rm = sm then r.seq ≤ s.seq else lexLT rm sm)
  else sm.isEmpty

/-- Stable insertion sort (ascending, ties keep original order),
embedding `sort_values(..., kind="stable")`. -/
def insertAsc {α : Type} (le : α → α → Bool) (x : α) : List α → List α
  | [] => [x]
  | y :: t => if le y x then y :: insertAsc le x t else x :: y :: t

def stableSortBy {α : Type} (le : α → α → Bool) (l : List α) : List α :=
  l.foldl (fun acc x => insertAsc le x acc) []

/-- Embeds `build_compare_dataframe` (src/app_modules/dash_logic.py,
lines 81-233): returns the sorted record list and `ordered_keys`. -/
def build_compare_dataframe (rows : List DictRow) (koMap ruMap enMap : StrMap)
    (includeEnKeys : Bool) : List CompareRecord × List (List Char) :=
  (stableSortBy rowSortLE
     ((mergedRecords rows koMap ruMap enMap includeEnKeys).map
        recompute_match_record),
   orderedKeysOf rows koMap ruMap enMap includeEnKeys)

/-! ## The diff reporter (`diff_report` in src/app.py, lines 333-371;
the identical logic is inlined in `run_diff_report`, src/dash_app.py,
lines 670-726)

A dataframe turned into records (`df.to_dict("records")`) is embedded as
a list of rows, each an association list from column name to cell value,
together with the column list. -/

abbrev Row := List (List Char × List Char)

structure Table where
  cols : List (List Char)
  rows : List Row

/-- `r.get(col, "")` on a record dict. -/
def rowGet (r : Row) (c : List Char) : List Char :=
  (Option.map (fun p => p.2) (List.find? (fun p => p.1 = c) r)).getD []

def bikyoKeyCol : List Char := "비교 Key".toList

def dictEnglishCol : List Char := "Dictionary English".toList

def seqColName : List Char := "순번".toList

def editStatusColName : List Char := "수정상태".toList

def addedStr : List Char := "추가".toList

def removedStr : List Char := "삭제".toList

def changedStr : List Char := "변경".toList

def dashStr : List Char := "-".toList

def rowAddedStr : List Char := "행 추가".toList

def rowExistsStr : List Char := "행 존재".toList

structure DiffRecord where
  key : List Char
  changeType : List Char
  column : List Char
  oldValue : List Char
  newValue : List Char
deriving DecidableEq

/-- All cell values of a record normalized
(`{k: normalize_text(v) for k, v in r.items()}`). -/
def normalizeRowVals (r : Row) : Row :=
  r.map (fun p => (p.1, normalize_text p.2))

/-- `d[k] = v` on a Python dict: overwrite in place, else append. -/
def dictSet (m : List (List Char × Row)) (k : List Char) (v : Row) :
    List (List Char × Row) :=
  if (List.find? (fun p => p.1 = k) m).isSome then
    m.map (fun p => if p.1 = k then (k, v) else p)
  else m ++ [(k, v)]

/-- The `baseline_map` / `current_map` dict comprehensions: key is the
normalized key cell, rows with empty normalized key dropped, values
normalized, later rows with the same key overwrite earlier ones. -/
def buildKeyMap (records : List Row) (keyCol : List Char) :
    List (List Char × Row) :=
  records.foldl (fun acc r =>
    let k := normalize_text (rowGet r keyCol)
    if k = [] then acc else dictSet acc k (normalizeRowVals r)) []

def keyMapFind (m : List (List Char × Row)) (k : List Char) : Option Row :=
  Option.map (fun p => p.2) (List.find? (fun p => p.1 = k) m)

/-- Ascending lexicographic sort of keys: Python `sorted(...)`. -/
def sortKeys (l : List (List Char)) : List (List Char) :=
  stableSortBy (fun a b => !(lexLT b a)) l

/-- The per-key emission of the diff loop: an added record, a removed
record, or one changed record per differing column of the sorted column
union, skipping `순번` and `수정상태`. -/
def emitDiffKey (bmap cmap : List (List Char × Row)) (key : List Char) :
    List DiffRecord :=
  match keyMapFind bmap key, keyMapFind cmap key with
  | none, some _ => [⟨key, addedStr, dashStr, [], rowAddedStr⟩]
  | some _, none => [⟨key, removedStr, dashStr, rowExistsStr, []⟩]
  | some before, some after =>
    (sortKeys (dedupKeepFirst (before.map (fun p => p.1) ++
        after.map (fun p => p.1)))).filterMap (fun col =>
      if col = seqColName ∨ col = editStatusColName then none
      else
        let b := normalize_text (rowGet before col)
        let a := normalize_text (rowGet after col)
        if b ≠ a then some ⟨key, changedStr, col, b, a⟩ else none)
  | none, none => []

/-- The key column used for a table: `비교 Key` when present, else
`Dictionary English`. -/
def tableKeyCol (t : Table) : List Char :=
  if bikyoKeyCol ∈ t.cols then bikyoKeyCol else dictEnglishCol

def tableKeyMap (t : Table) : List (List Char × Row) :=
  buildKeyMap t.rows (tableKeyCol t)

/-- Embeds `diff_report`: `none` models the early error return when
neither key column exists in one of the tables; otherwise iterate the
sorted union of keys.  (`tableKeyCol` always yields `비교 Key` or
`Dictionary English`, so the check reduces to membership of the chosen
column.) -/
def diff_report (baseline current : Table) : Option (List DiffRecord) :=
  let keyCol := tableKeyCol current
  let baseKeyCol := tableKeyCol baseline
  if keyCol ∈ current.cols ∧ baseKeyCol ∈ baseline.cols then
    let bmap := buildKeyMap baseline.rows baseKeyCol
    let cmap := buildKeyMap current.rows keyCol
    some ((sortKeys (dedupKeepFirst (bmap.map (fun p => p.1) ++
        cmap.map (fun p => p.1)))).flatMap (emitDiffKey bmap cmap))
  else none

/-! ## Claim-side (specification) definitions

These definitions follow the wording of the spec's claims; the theorems
below compare them with the embedded source functions. -/

/-- The candidate set described by claim C1: split the normalized
dictionary value on `","`, normalize each piece, drop empty pieces. -/
def specCandidates (dictVal : List Char) : List (List Char) :=
  ((splitComma (normalize_text dictVal)).map normalize_text).filter
    (fun x => x ≠ [])

/-- The lookup described by claim C4: walk the variant list; for each
variant try the raw map first (exact key hit), then the index; return
the normalized stored value of the first variant that hits, the empty
string when no variant hits. -/
def specVariantLookup (sourceMap lookup : StrMap) : List (List Char) → List Char
  | [] => []
  | c :: rest =>
    match mapFind sourceMap c with
    | some v => normalize_text v
    | none =>
      match mapFind lookup c with
      | some v => normalize_text v
      | none => specVariantLookup sourceMap lookup rest

/-- The union key order described by claim C3: one pass of first-seen
deduplication (of normalized, nonempty keys) over the concatenation of
the dictionary English phrases, the ko-map keys, the ru-map keys and —
only if `includeEnKeys` — the en-map keys. -/
def specKeyOrder (rows : List DictRow) (koMap ruMap enMap : StrMap)
    (includeEnKeys : Bool) : List (List Char) :=
  appendOrder []
    (dictionaryOrder rows ++ koMap.map (fun p => p.1) ++
     ruMap.map (fun p => p.1) ++
     (if includeEnKeys then enMap.map (fun p => p.1) else []))

/-- The first element of maximal score, ties broken in favor of the
first pair encountered in enumeration order (claim C8's description of
the fuzzy stage). -/
def firstArgmax (l : List ((Nat × Nat) × List Char)) :
    Option ((Nat × Nat) × List Char) :=
  l.foldl (fun best p =>
    match best with
    | none => some p
    | some b => if scoreLT b.1 p.1 then some p else some b) none

/-- The guesser described by claim C8: the same first three stages, then
the single highest-scoring normalized alias/header pair, accepted only
when its score is at least 0.78. -/
def specGuessColumn (cols cands : List (List Char)) : Option (List Char) :=
  match List.find? (fun cand => cols.contains cand) cands with
  | some cand => some cand
  | none =>
  match List.findSome? (fun cand =>
      dictLastLookup lowerTrimKey cols (lowerTrimKey cand)) cands with
  | some col => some col
  | none =>
  match List.findSome? (fun cand =>
      dictLastLookup normalize_header_name cols (normalize_header_name cand)) cands with
  | some col => some col
  | none =>
    match firstArgmax (scoredPairs cols cands) with
    | none => none
    | some best => if 78 * best.1.2 ≤ 100 * best.1.1 then some best.2 else none

/-! ## Concrete inputs used in examples, witnesses and counterexamples -/

def exSheetTrain : List Char := "시트, Train".toList

def exTrain : List Char := "Train".toList

def exCar : List Char := "Car".toList

def exProject : List Char := "Project".toList

def exDoubleQuoted : List Char := "\"\"abc\"\"".toList

def exPlain : List Char := "abc".toList

def exQuotedAbc : List Char := "\"abc\"".toList

def exCarSpaceMap : StrMap := [("Car ".toList, "자동차".toList)]

def exChaStr : List Char := "자동차".toList

def exLowCar : List Char := "car".toList

def exHeaders : List (List Char) :=
  ["Main Modulew".toList, "English".toList, "Korean".toList, "Russian".toList]

def exMainModuleAlias : List Char := "Main Module".toList

def exMainModulewHeader : List Char := "Main Modulew".toList

def exSeqRows : List DictRow :=
  [⟨[], exCar, [], []⟩, ⟨[], exTrain, [], []⟩]

def exProjectKoMap : StrMap := [(exProject, "프로젝트".toList)]

def exC9KoMap : StrMap := [(exCar, exChaStr)]

def dictKoreanColName : List Char := "Dictionary Korean".toList

/-- Diff example: baseline has key Car with Korean 차; current has Car
with Korean 자동차 and a new key Project. -/
def exC7Base : Table :=
  ⟨[bikyoKeyCol, dictKoreanColName],
   [[(bikyoKeyCol, exCar), (dictKoreanColName, "차".toList)]]⟩

def exC7Cur : Table :=
  ⟨[bikyoKeyCol, dictKoreanColName],
   [[(bikyoKeyCol, exCar), (dictKoreanColName, exChaStr)],
    [(bikyoKeyCol, exProject), (dictKoreanColName, "프".toList)]]⟩

def exC7Out : List DiffRecord := (diff_report exC7Base exC7Cur).getD []

instance : Inhabited CompareRecord :=
  ⟨⟨0, [], [], [], [], [], [], [], [], [], [], [], [], [], [], []⟩⟩

/-- The first record of the Car/Train/Project example build, used as a
concrete instance for the sequence-number property. -/
def exC3CarRecord : CompareRecord :=
  ((build_compare_dataframe exSeqRows exProjectKoMap [] [] false).1).headI

/-- The single record of the empty-dictionary example build. -/
def exC10Record : CompareRecord :=
  ((build_compare_dataframe [] exC9KoMap [] [] false).1).headI

/-! # Theorems -/

/-- C1: for every dictionary-side value `d` and JSON-side value `j`, the
per-language match evaluator returns `파일없음` (no-file) when
`normalize j` is empty; otherwise `N` when `normalize d` is empty;
otherwise `Y` if and only if `normalize j` is exactly string-equal to
one of the candidates obtained by splitting `normalize d` on `","`,
normalizing each piece and dropping empty pieces — and `N` otherwise.
In particular `evaluate("시트, Train", "Train") = Y`,
`evaluate("", "Train") = N`, `evaluate("Train", "") = 파일없음`. -/
theorem claim_C1 :
    (∀ d j : List Char,
      evaluate_binary_match d j =
        (if normalize_text j = [] then noFileStr
         else if normalize_text d = [] then nStr
         else if normalize_text j ∈ specCandidates d then yStr else nStr))
    ∧ (∀ d j : List Char,
      evaluate_binary_match d j = yStr ↔
        normalize_text j ≠ [] ∧ normalize_text d ≠ [] ∧
        normalize_text j ∈ specCandidates d)
    ∧ evaluate_binary_match exSheetTrain exTrain = yStr
    ∧ evaluate_binary_match [] exTrain = nStr
    ∧ evaluate_binary_match exTrain [] = noFileStr := by
  have base : ∀ d j : List Char,
      evaluate_binary_match d j =
        (if normalize_text j = [] then noFileStr
         else if normalize_text d = [] then nStr
         else if normalize_text j ∈ specCandidates d then yStr else nStr) := by
    intro d j; rfl
  refine ⟨base, ?_, by decide, by decide, by decide⟩
  intro d j
  rw [base]
  split_ifs with h1 h2 h3 <;> simp_all <;> decide

/-- C2: for every triple of per-language match states, the overall
aggregate is `파일없음` exactly when one of the three is `파일없음`
(file availability takes precedence over a genuine mismatch); otherwise
it is `Y` exactly when all three are `Y`, and `N` in every remaining
case.  The inlined aggregation of `recompute_match_columns` agrees with
`evaluate_overall_match`, and
`overall(Y,Y,Y) = Y`, `overall(Y,파일없음,Y) = 파일없음`,
`overall(Y,N,Y) = N`. -/
theorem claim_C2 :
    (∀ ko en ru : List Char,
      evaluate_overall_match ko en ru = noFileStr ↔
        (ko = noFileStr ∨ en = noFileStr ∨ ru = noFileStr))
    ∧ (∀ ko en ru : List Char,
      evaluate_overall_match ko en ru = yStr ↔
        (¬(ko = noFileStr ∨ en = noFileStr ∨ ru = noFileStr) ∧
         ko = yStr ∧ en = yStr ∧ ru = yStr))
    ∧ (∀ ko en ru : List Char,
      evaluate_overall_match ko en ru = nStr ↔
        (¬(ko = noFileStr ∨ en = noFileStr ∨ ru = noFileStr) ∧
         ¬(ko = yStr ∧ en = yStr ∧ ru = yStr)))
    ∧ (∀ r : CompareRecord,
      recompute_match_record r =
        { r with
          koMatch := evaluate_binary_match r.dictKorean r.koJson,
          enMatch := evaluate_binary_match r.dictEnglish r.enJson,
          ruMatch := evaluate_binary_match r.dictRussian r.ruJson,
          overallMatch := evaluate_overall_match
            (evaluate_binary_match r.dictKorean r.koJson)
            (evaluate_binary_match r.dictEnglish r.enJson)
            (evaluate_binary_match r.dictRussian r.ruJson) })
    ∧ evaluate_overall_match yStr yStr yStr = yStr
    ∧ evaluate_overall_match yStr noFileStr yStr = noFileStr
    ∧ evaluate_overall_match yStr nStr yStr = nStr := by
  have d1 : noFileStr ≠ yStr := by decide
  have d2 : noFileStr ≠ nStr := by decide
  have d3 : yStr ≠ nStr := by decide
  have d4 : yStr ≠ noFileStr := by decide
  have d5 : nStr ≠ noFileStr := by decide
  have d6 : nStr ≠ yStr := by decide
  refine ⟨?_, ?_, ?_, fun _ => rfl, by decide, by decide, by decide⟩
  · intro ko en ru
    unfold evaluate_overall_match
    split_ifs with h1 h2 <;> simp_all
  · intro ko en ru
    unfold evaluate_overall_match
    split_ifs with h1 h2 <;> simp_all
  · intro ko en ru
    unfold evaluate_overall_match
    split_ifs with h1 h2 <;> simp_all

/-- Helper: the head of one stable descending insertion. -/
theorem head_insertDesc (x : (Nat × Nat) × List Char)
    (s : List ((Nat × Nat) × List Char)) :
    (insertDesc x s).head? =
      (match s.head? with
       | none => some x
       | some y => if scoreLT y.1 x.1 then some x else some y) := by
  cases s with
  | nil => rfl
  | cons y t =>
    unfold insertDesc
    split_ifs with h <;> simp [h]

/-- Helper: the head of the stable descending sort is the first element
of maximal score in enumeration order (Python's stable `sort` with
`reverse=True` followed by `[0]`). -/
theorem head_sortScoredDesc (l : List ((Nat × Nat) × List Char)) :
    (sortScoredDesc l).head? = firstArgmax l := by
  induction l using List.reverseRecOn with
  | nil => rfl
  | append_singleton l x ih =>
    have e1 : sortScoredDesc (l ++ [x]) = insertDesc x (sortScoredDesc l) := by
      unfold sortScoredDesc
      rw [List.foldl_append]
      simp only [List.foldl_cons, List.foldl_nil]
    have e2 : firstArgmax (l ++ [x]) =
        (match firstArgmax l with
         | none => some x
         | some b => if scoreLT b.1 x.1 then some x else some b) := by
      unfold firstArgmax
      rw [List.foldl_append]
      simp only [List.foldl_cons, List.foldl_nil]
    rw [e1, e2, head_insertDesc, ih]

/-- C8: for every header list and ordered alias list, the column guesser
resolves, first hit winning, by (1) exact verbatim alias, (2)
case-insensitive trimmed match, (3) header-name-normalized match, (4)
fuzzy similarity over every normalized alias/header pair, accepting the
single highest-scoring pair only when its score is at least 0.78 and
returning none otherwise, ties broken in favor of the first pair in
enumeration order.  Headers `["Main Modulew","English","Korean",
"Russian"]` with alias `"Main Module"` resolve to `"Main Modulew"` via
the fuzzy stage (ratio 20/21 ≥ 0.78) while stages (1)-(3) all miss. -/
theorem claim_C8 :
    (∀ cols cands : List (List Char),
      guess_column cols cands = specGuessColumn cols cands)
    ∧ List.find? (fun cand => exHeaders.contains cand) [exMainModuleAlias] = none
    ∧ List.findSome? (fun cand =>
        dictLastLookup lowerTrimKey exHeaders (lowerTrimKey cand))
        [exMainModuleAlias] = none
    ∧ List.findSome? (fun cand =>
        dictLastLookup normalize_header_name exHeaders
          (normalize_header_name cand)) [exMainModuleAlias] = none
    ∧ smRatio (normalize_header_name exMainModuleAlias)
        (normalize_header_name exMainModulewHeader) = (20, 21)
    ∧ guess_column exHeaders [exMainModuleAlias] = some exMainModulewHeader := by
  refine ⟨?_, by decide, by decide, by decide, by decide, by decide⟩
  intro cols cands
  unfold guess_column specGuessColumn
  cases List.find? (fun cand => cols.contains cand) cands with
  | some cand => rfl
  | none =>
    cases List.findSome? (fun cand =>
        dictLastLookup lowerTrimKey cols (lowerTrimKey cand)) cands with
    | some col => rfl
    | none =>
      cases List.findSome? (fun cand =>
          dictLastLookup normalize_header_name cols
            (normalize_header_name cand)) cands with
      | some col => rfl
      | none =>
        have h := head_sortScoredDesc (scoredPairs cols cands)
        cases hs : sortScoredDesc (scoredPairs cols cands) with
        | nil =>
          rw [hs] at h
          simp only [List.head?_nil] at h
          rw [← h]
        | cons best rest =>
          rw [hs] at h
          simp only [List.head?_cons] at h
          rw [← h]

/-- C4: for every language map and requested key, the value lookup
expands the requested key into its variant list (raw, normalized,
trimmed variants, lowercased variants, canonical-key variants), tries
the raw map directly before falling back to the multi-variant index for
each variant, and returns the normalized stored value of the first
variant that hits, or the empty string when no variant hits; an index
built from `{"Car ": "자동차"}` looked up with `"car"` returns
`"자동차"`. -/
theorem claim_C4 :
    (∀ sourceMap lookup : StrMap, ∀ key : List Char,
      get_json_value sourceMap lookup key =
        specVariantLookup sourceMap lookup (keyVariants key))
    ∧ get_json_value exCarSpaceMap (build_lookup_index exCarSpaceMap) exLowCar
        = exChaStr := by
  constructor
  · intro sourceMap lookup key
    unfold get_json_value
    generalize keyVariants key = vs
    induction vs with
    | nil => rfl
    | cons c rest ih =>
      rw [List.findSome?_cons]
      unfold specVariantLookup
      cases hm : mapFind sourceMap c with
      | some v => simp [hm]
      | none =>
        cases hl : mapFind lookup c with
        | some v => simp [hm, hl]
        | none => simp [hm, hl, ih]
  · decide

/-! ## Helper lemmas on the compare-table builder -/

/-- One step of `dedupKeepFirst` from the right. -/
theorem dedupKeepFirst_append_singleton (l : List (List Char)) (x : List Char) :
    dedupKeepFirst (l ++ [x]) =
      (if x ∈ dedupKeepFirst l then dedupKeepFirst l
       else dedupKeepFirst l ++ [x]) := by
  unfold dedupKeepFirst
  rw [List.foldl_append]
  rfl

theorem dedupKeepFirst_nodup (l : List (List Char)) :
    (dedupKeepFirst l).Nodup := by
  induction l using List.reverseRecOn with
  | nil => simp [dedupKeepFirst]
  | append_singleton l x ih =>
    rw [dedupKeepFirst_append_singleton]
    split_ifs with h
    · exact ih
    · simp [List.nodup_append, ih, h]

/-- One step of `appendOrder` from the right. -/
theorem appendOrder_append_singleton (acc : List (List Char))
    (ks : List (List Char)) (k : List Char) :
    appendOrder acc (ks ++ [k]) = appendOrderStep (appendOrder acc ks) k := by
  unfold appendOrder
  rw [List.foldl_append]
  simp only [List.foldl_cons, List.foldl_nil]

theorem appendOrder_append (acc : List (List Char)) (k1 k2 : List (List Char)) :
    appendOrder acc (k1 ++ k2) = appendOrder (appendOrder acc k1) k2 := by
  unfold appendOrder
  rw [List.foldl_append]

theorem appendOrder_nodup (acc : List (List Char)) (ks : List (List Char))
    (h : acc.Nodup) : (appendOrder acc ks).Nodup := by
  induction ks using List.reverseRecOn with
  | nil => exact h
  | append_singleton ks k ih =>
    rw [appendOrder_append_singleton]
    simp only [appendOrderStep]
    split_ifs with hc
    · simp [List.nodup_append, ih, hc.2]
    · exact ih

/-- The builder's union key order equals the single-pass first-seen
deduplication described by claim C3. -/
theorem orderedKeysOf_eq_spec (rows : List DictRow) (koMap ruMap enMap : StrMap)
    (flag : Bool) :
    orderedKeysOf rows koMap ruMap enMap flag =
      specKeyOrder rows koMap ruMap enMap flag := by
  unfold orderedKeysOf specKeyOrder
  cases flag <;> simp [appendOrder_append]

theorem orderedKeysOf_nodup (rows : List DictRow) (koMap ruMap enMap : StrMap)
    (flag : Bool) : (orderedKeysOf rows koMap ruMap enMap flag).Nodup := by
  rw [orderedKeysOf_eq_spec]
  exact appendOrder_nodup [] _ List.nodup_nil

theorem groupedRows_map_english (rows : List DictRow) :
    (groupedRows rows).map (fun g => g.english) = dictionaryOrder rows := by
  unfold groupedRows
  rw [List.map_map]
  exact (List.map_congr_left fun k _ => rfl).trans (List.map_id _)

/-- A list whose image under the key projection has no duplicates has at
most one element in any fiber. -/
theorem filter_fiber_eq_nil_or_singleton (l : List GroupRow) (k : List Char)
    (h : (l.map (fun g => g.english)).Nodup) :
    l.filter (fun g => g.english = k) = [] ∨
      ∃ g, l.filter (fun g => g.english = k) = [g] ∧ g.english = k := by
  induction l with
  | nil => left; rfl
  | cons g t ih =>
    simp only [List.map_cons, List.nodup_cons] at h
    rw [List.filter_cons]
    split_ifs with hg
    · simp only [decide_eq_true_eq] at hg
      have hrest : t.filter (fun x => x.english = k) = [] := by
        rw [List.filter_eq_nil_iff]
        intro a ha
        simp only [decide_eq_true_eq]
        intro hak
        apply h.1
        rw [hg, ← hak]
        exact List.mem_map_of_mem _ ha
      right
      exact ⟨g, by rw [hrest], hg⟩
    · exact ih h.2

/-- Mapping the key projection over a `flatMap` whose pieces each carry
their key recovers the key list. -/
theorem map_flatMap_keys (ks : List (List Char))
    (f : List Char → List CompareRecord)
    (h : ∀ k, (f k).map (fun r => r.key) = [k]) :
    (ks.flatMap f).map (fun r => r.key) = ks := by
  induction ks with
  | nil => rfl
  | cons k t ih => simp [List.flatMap_cons, h, ih]

/-- The keys of the merged records are exactly the ordered keys. -/
theorem mergedRecords_map_key (rows : List DictRow) (koMap ruMap enMap : StrMap)
    (flag : Bool) :
    (mergedRecords rows koMap ruMap enMap flag).map (fun r => r.key) =
      orderedKeysOf rows koMap ruMap enMap flag := by
  unfold mergedRecords
  apply map_flatMap_keys
  intro k
  have hnd : ((groupedRows rows).map (fun g => g.english)).Nodup := by
    rw [groupedRows_map_english]
    exact dedupKeepFirst_nodup _
  rcases filter_fiber_eq_nil_or_singleton (groupedRows rows) k hnd with h | ⟨g, hg, _⟩
  · rw [h]
    rfl
  · rw [hg]
    rfl

/-- Every merged record carries the sequence number of its key. -/
theorem mergedRecords_seq (rows : List DictRow) (koMap ruMap enMap : StrMap)
    (flag : Bool) :
    ∀ r ∈ mergedRecords rows koMap ruMap enMap flag,
      r.seq = firstPos r.key (orderedKeysOf rows koMap ruMap enMap flag) + 1 := by
  intro r hr
  unfold mergedRecords at hr
  rw [List.mem_flatMap] at hr
  obtain ⟨k, _, hr⟩ := hr
  rcases hfil : (groupedRows rows).filter (fun g => g.english = k) with _ | ⟨g, gs⟩
  · rw [hfil] at hr
    simp only [List.mem_singleton] at hr
    subst hr
    rfl
  · rw [hfil] at hr
    simp only [List.mem_map] at hr
    obtain ⟨g2, _, hr⟩ := hr
    subst hr
    rfl

theorem insertAsc_perm {α : Type} (le : α → α → Bool) (x : α) (l : List α) :
    (insertAsc le x l).Perm (x :: l) := by
  induction l with
  | nil => exact List.Perm.refl _
  | cons y t ih =>
    unfold insertAsc
    split_ifs with h
    · exact ((ih.cons y).trans (List.Perm.swap x y t))
    · exact List.Perm.refl _

theorem stableSortBy_perm {α : Type} (le : α → α → Bool) (l : List α) :
    (stableSortBy le l).Perm l := by
  have general : ∀ (l acc : List α),
      (l.foldl (fun acc x => insertAsc le x acc) acc).Perm (acc ++ l) := by
    intro l
    induction l with
    | nil => intro acc; simp
    | cons x t ih =>
      intro acc
      have h1 := ih (insertAsc le x acc)
      have h2 := (insertAsc_perm le x acc).append_right t
      have h3 : ((x :: acc) ++ t).Perm (acc ++ x :: t) := List.perm_middle.symm
      exact (h1.trans h2).trans h3
  simpa using general l []

/-- `recompute_match_columns` only rewrites the four match columns. -/
theorem recompute_key (r : CompareRecord) :
    (recompute_match_record r).key = r.key := by
  cases r
  rfl

theorem recompute_seq (r : CompareRecord) :
    (recompute_match_record r).seq = r.seq := by
  cases r
  rfl

/-- The record list of the builder carries exactly the ordered keys, as
a permutation (the final stable sort only permutes rows). -/
theorem build_map_key_perm (rows : List DictRow) (koMap ruMap enMap : StrMap)
    (flag : Bool) :
    ((build_compare_dataframe rows koMap ruMap enMap flag).1.map
        (fun r => r.key)).Perm
      (orderedKeysOf rows koMap ruMap enMap flag) := by
  unfold build_compare_dataframe
  have h1 := (stableSortBy_perm rowSortLE
    ((mergedRecords rows koMap ruMap enMap flag).map recompute_match_record)).map
    (fun r : CompareRecord => r.key)
  refine h1.trans ?_
  rw [List.map_map]
  exact List.Perm.of_eq ((List.map_congr_left fun r _ => recompute_key r).trans
    (mergedRecords_map_key rows koMap ruMap enMap flag))

/-- Every built record carries the sequence number of its key. -/
theorem build_seq (rows : List DictRow) (koMap ruMap enMap : StrMap)
    (flag : Bool) :
    ∀ r ∈ (build_compare_dataframe rows koMap ruMap enMap flag).1,
      r.seq = firstPos r.key (orderedKeysOf rows koMap ruMap enMap flag) + 1 := by
  intro r hr
  unfold build_compare_dataframe at hr
  have hperm := stableSortBy_perm rowSortLE
    ((mergedRecords rows koMap ruMap enMap flag).map recompute_match_record)
  rw [hperm.mem_iff, List.mem_map] at hr
  obtain ⟨r0, hr0, hrec⟩ := hr
  have hkey : r.key = r0.key := by rw [← hrec, recompute_key]
  have hseq : r.seq = r0.seq := by rw [← hrec, recompute_seq]
  rw [hkey, hseq]
  exact mergedRecords_seq rows koMap ruMap enMap flag r0 hr0

theorem firstPos_cons (k a : List Char) (t : List (List Char)) :
    firstPos k (a :: t) = if a = k then 0 else firstPos k t + 1 := rfl

/-- On a duplicate-free list, first positions enumerate `1..n`. -/
theorem firstPos_map_range (l : List (List Char)) (h : l.Nodup) :
    l.map (fun k => firstPos k l + 1) = List.range' 1 l.length := by
  induction l with
  | nil => rfl
  | cons a t ih =>
    simp only [List.nodup_cons] at h
    have ha : firstPos a (a :: t) = 0 := by rw [firstPos_cons, if_pos rfl]
    have ht : ∀ k ∈ t, firstPos k (a :: t) = firstPos k t + 1 := by
      intro k hk
      have hne : a ≠ k := fun e => h.1 (e ▸ hk)
      rw [firstPos_cons, if_neg hne]
    rw [List.map_cons, ha]
    have hmap : t.map (fun k => firstPos k (a :: t) + 1) =
        (t.map (fun k => firstPos k t + 1)).map (fun n => n + 1) := by
      rw [List.map_map]
      exact List.map_congr_left (fun k hk => by simp [ht k hk, Function.comp])
    rw [hmap, ih h.2]
    have hr : (List.range' 1 t.length).map (fun n => n + 1) =
        List.range' 2 t.length := by
      have h2 := List.map_add_range' 1 1 t.length 1
      simpa [Nat.add_comm] using h2
    rw [hr, List.length_cons, List.range'_succ]

/-- C3: for every input, the compare-table builder assigns 1-based
sequence numbers to distinct union keys in exactly this first-seen
order: normalized dictionary English phrases in row order, then ko-map
keys not already seen, then ru-map keys, then — only if `includeEnKeys`
— en-map keys; every record carries the number of its key even after
the final sort by module.  Dictionary keys `[Car, Train]` plus new
ko-map key `Project` yield `Car = 1`, `Train = 2`, `Project = 3`. -/
theorem claim_C3 :
    (∀ (rows : List DictRow) (koMap ruMap enMap : StrMap) (flag : Bool),
      (build_compare_dataframe rows koMap ruMap enMap flag).2 =
        specKeyOrder rows koMap ruMap enMap flag)
    ∧ (∀ (rows : List DictRow) (koMap ruMap enMap : StrMap) (flag : Bool),
      ∀ r ∈ (build_compare_dataframe rows koMap ruMap enMap flag).1,
        r.seq = firstPos r.key
          (build_compare_dataframe rows koMap ruMap enMap flag).2 + 1)
    ∧ (build_compare_dataframe exSeqRows exProjectKoMap [] [] false).2 =
        [exCar, exTrain, exProject]
    ∧ ((build_compare_dataframe exSeqRows exProjectKoMap [] [] false).1.map
        (fun r => (r.key, r.seq))) =
        [(exCar, 1), (exTrain, 2), (exProject, 3)] := by
  refine ⟨?_, ?_, by decide, by decide⟩
  · intro rows koMap ruMap enMap flag
    exact orderedKeysOf_eq_spec rows koMap ruMap enMap flag
  · intro rows koMap ruMap enMap flag r hr
    exact build_seq rows koMap ruMap enMap flag r hr

theorem claim_C3_witness :
    exC3CarRecord ∈ (build_compare_dataframe exSeqRows exProjectKoMap [] [] false).1
    ∧ exC3CarRecord.seq = firstPos exC3CarRecord.key
        (build_compare_dataframe exSeqRows exProjectKoMap [] [] false).2 + 1 :=
  ⟨by decide,
   claim_C3.2.1 exSeqRows exProjectKoMap [] [] false exC3CarRecord (by decide)⟩

/-- C10: in every record set returned by the builder, the comparison
keys are pairwise distinct, there is exactly one record per key of the
returned ordered-keys list (keys are a permutation of that list), each
record's sequence number is the 1-based position of its key in that
list, and the sequence numbers are exactly `{1, …, N}` for `N` output
records. -/
theorem claim_C10 :
    ∀ (rows : List DictRow) (koMap ruMap enMap : StrMap) (flag : Bool),
    ((build_compare_dataframe rows koMap ruMap enMap flag).1.map
        (fun r => r.key)).Nodup
    ∧ ((build_compare_dataframe rows koMap ruMap enMap flag).1.map
        (fun r => r.key)).Perm
        (build_compare_dataframe rows koMap ruMap enMap flag).2
    ∧ (∀ r ∈ (build_compare_dataframe rows koMap ruMap enMap flag).1,
        r.seq = firstPos r.key
          (build_compare_dataframe rows koMap ruMap enMap flag).2 + 1)
    ∧ ((build_compare_dataframe rows koMap ruMap enMap flag).1.map
        (fun r => r.seq)).Perm
        (List.range' 1 (build_compare_dataframe rows koMap ruMap enMap flag).1.length) := by
  intro rows koMap ruMap enMap flag
  have hperm := build_map_key_perm rows koMap ruMap enMap flag
  have hnodup := orderedKeysOf_nodup rows koMap ruMap enMap flag
  have hlen : (build_compare_dataframe rows koMap ruMap enMap flag).1.length =
      (orderedKeysOf rows koMap ruMap enMap flag).length := by
    have h := hperm.length_eq
    rwa [List.length_map] at h
  refine ⟨hperm.nodup_iff.2 hnodup, hperm,
    build_seq rows koMap ruMap enMap flag, ?_⟩
  have hseqmap : (build_compare_dataframe rows koMap ruMap enMap flag).1.map
      (fun r => r.seq) =
      (build_compare_dataframe rows koMap ruMap enMap flag).1.map
      (fun r => firstPos r.key (orderedKeysOf rows koMap ruMap enMap flag) + 1) :=
    List.map_congr_left (fun r hr => build_seq rows koMap ruMap enMap flag r hr)
  rw [hseqmap]
  have h2 := hperm.map (fun k => firstPos k (orderedKeysOf rows koMap ruMap enMap flag) + 1)
  rw [List.map_map, firstPos_map_range _ hnodup] at h2
  show (List.map _ _).Perm _
  rw [hlen]
  exact h2

theorem claim_C10_witness :
    exC10Record ∈ (build_compare_dataframe [] exC9KoMap [] [] false).1
    ∧ exC10Record.seq = firstPos exC10Record.key
        (build_compare_dataframe [] exC9KoMap [] [] false).2 + 1 :=
  ⟨by decide,
   (claim_C10 [] exC9KoMap [] [] false).2.2.1 exC10Record (by decide)⟩

/-- C9 counterexample: with an empty dictionary but a nonempty ko-map,
the builder returns a nonempty record set (one `JSON만` row per JSON
key), not the empty record set the claim asserts. -/
theorem claim_C9_counterexample :
    (build_compare_dataframe [] exC9KoMap [] [] false).1 ≠ []
    ∧ ((build_compare_dataframe [] exC9KoMap [] [] false).1.map
        (fun r => (r.key, r.source))) = [(exCar, jsonOnlyStr)] := by
  constructor
  · decide
  · decide

/-- C9 (amended): for every call in which the dictionary has no rows or
every row has empty normalized English, the builder still returns a
well-defined record set — one record per distinct nonempty normalized
key of the ko-map, then ru-map, then (if included) en-map — with no
exception (the embedding is total); that record set is empty exactly
when those maps contribute no keys. -/
theorem claim_C9 :
    ∀ (rows : List DictRow) (koMap ruMap enMap : StrMap) (flag : Bool),
    (∀ r ∈ rows, normalize_text r.english = []) →
    (build_compare_dataframe rows koMap ruMap enMap flag).2 =
      appendOrder [] (koMap.map (fun p => p.1) ++ ruMap.map (fun p => p.1) ++
        (if flag then enMap.map (fun p => p.1) else []))
    ∧ ((build_compare_dataframe rows koMap ruMap enMap flag).1.map
        (fun r => r.key)).Perm
        (build_compare_dataframe rows koMap ruMap enMap flag).2
    ∧ ((build_compare_dataframe rows koMap ruMap enMap flag).1 = [] ↔
        (build_compare_dataframe rows koMap ruMap enMap flag).2 = []) := by
  intro rows koMap ruMap enMap flag hemp
  have hfilter : filteredRows rows = [] := by
    unfold filteredRows
    rw [List.filter_eq_nil_iff]
    intro r hr
    rw [List.mem_map] at hr
    obtain ⟨r0, hr0, hr⟩ := hr
    subst hr
    simp [normRow, hemp r0 hr0]
  have hdict : dictionaryOrder rows = [] := by
    unfold dictionaryOrder
    rw [hfilter]
    rfl
  have h2 : (build_compare_dataframe rows koMap ruMap enMap flag).2 =
      appendOrder [] (koMap.map (fun p => p.1) ++ ruMap.map (fun p => p.1) ++
        (if flag then enMap.map (fun p => p.1) else [])) := by
    show orderedKeysOf rows koMap ruMap enMap flag = _
    rw [orderedKeysOf_eq_spec]
    unfold specKeyOrder
    rw [hdict, List.nil_append]
  have hperm := build_map_key_perm rows koMap ruMap enMap flag
  refine ⟨h2, hperm, ?_⟩
  have hlen : (build_compare_dataframe rows koMap ruMap enMap flag).1.length =
      (orderedKeysOf rows koMap ruMap enMap flag).length := by
    have h := hperm.length_eq
    rwa [List.length_map] at h
  constructor
  · intro h
    have : (orderedKeysOf rows koMap ruMap enMap flag).length = 0 := by
      rw [← hlen, h]
      rfl
    exact List.length_eq_zero.1 this
  · intro h
    have : (build_compare_dataframe rows koMap ruMap enMap flag).1.length = 0 := by
      rw [hlen]
      show (build_compare_dataframe rows koMap ruMap enMap flag).2.length = 0
      rw [h]
      rfl
    exact List.length_eq_zero.1 this

theorem claim_C9_witness :
    (∀ r ∈ ([] : List DictRow), normalize_text r.english = [])
    ∧ (build_compare_dataframe [] exC9KoMap [] [] false).2 =
        appendOrder [] (exC9KoMap.map (fun p => p.1) ++
          ([] : StrMap).map (fun p => p.1) ++
          (if false then ([] : StrMap).map (fun p => p.1) else [])) :=
  ⟨fun r hr => absurd hr (List.not_mem_nil r),
   (claim_C9 [] exC9KoMap [] [] false
     (fun r hr => absurd hr (List.not_mem_nil r))).1⟩

/-! ## Helper lemmas on the diff reporter -/

theorem mem_dedupKeepFirst (x : List Char) (l : List (List Char)) :
    x ∈ dedupKeepFirst l ↔ x ∈ l := by
  induction l using List.reverseRecOn with
  | nil => simp [dedupKeepFirst]
  | append_singleton l y ih =>
    rw [dedupKeepFirst_append_singleton]
    split_ifs with hy
    · rw [ih, List.mem_append, List.mem_singleton]
      constructor
      · exact Or.inl
      · rintro (h | rfl)
        · exact h
        · exact ih.1 hy
    · rw [List.mem_append, List.mem_singleton, ih, List.mem_append,
        List.mem_singleton]

/-- Filtering a `flatMap` by a predicate that only selects records of one
key reduces to that key's piece. -/
theorem flatMap_filter_unique {α β : Type} [DecidableEq α]
    (f : α → List β) (p : β → Bool) (k : α)
    (honly : ∀ k', ∀ r ∈ f k', p r = true → k' = k) :
    ∀ keys : List α, keys.Nodup →
      (keys.flatMap f).filter p = if k ∈ keys then (f k).filter p else [] := by
  intro keys
  induction keys with
  | nil => intro _; simp
  | cons k' t ih =>
    intro hnd
    simp only [List.nodup_cons] at hnd
    rw [List.flatMap_cons, List.filter_append, ih hnd.2]
    by_cases hk : k' = k
    · subst hk
      rw [if_neg hnd.1, if_pos (List.mem_cons_self _ _)]
      simp
    · have hf : (f k').filter p = [] := by
        rw [List.filter_eq_nil_iff]
        intro r hr hp
        exact hk (honly k' r hr hp)
      rw [hf]
      by_cases hkt : k ∈ t
      · rw [if_pos hkt, if_pos (List.mem_cons_of_mem _ hkt)]
        simp
      · rw [if_neg hkt, if_neg (fun h => (List.mem_cons.1 h).elim
          (fun e => hk e.symm) hkt)]
        simp

/-- Filtering a `filterMap` over duplicate-free columns by a predicate
that selects exactly the record of one column isolates that column's
optional record. -/
theorem filterMap_filter_unique {α β : Type} [DecidableEq α]
    (g : α → Option β) (p : β → Bool) (col : α)
    (honly : ∀ c r, g c = some r → (p r = true ↔ c = col)) :
    ∀ cols : List α, cols.Nodup →
      (cols.filterMap g).filter p =
        if col ∈ cols then (g col).toList.filter p else [] := by
  intro cols
  induction cols with
  | nil => intro _; simp
  | cons c t ih =>
    intro hnd
    simp only [List.nodup_cons] at hnd
    rw [List.filterMap_cons]
    cases hg : g c with
    | none =>
      rw [ih hnd.2]
      by_cases hc : c = col
      · subst hc
        rw [if_neg hnd.1, if_pos (List.mem_cons_self _ _), hg]
        rfl
      · by_cases hct : col ∈ t
        · rw [if_pos hct, if_pos (List.mem_cons_of_mem _ hct)]
        · rw [if_neg hct, if_neg (fun h => (List.mem_cons.1 h).elim
            (fun e => hc e.symm) hct)]
    | some r =>
      rw [List.filter_cons]
      by_cases hc : c = col
      · subst hc
        have hp : p r = true := (honly c r hg).2 rfl
        rw [hp, if_pos rfl, ih hnd.2, if_neg hnd.1,
          if_pos (List.mem_cons_self _ _), hg]
        simp [hp]
      · have hp : p r = false := by
          rw [Bool.eq_false_iff]
          intro h
          exact hc ((honly c r hg).1 h)
        rw [hp, ih hnd.2]
        simp only [Bool.false_eq_true, if_false]
        by_cases hct : col ∈ t
        · rw [if_pos hct, if_pos (List.mem_cons_of_mem _ hct)]
        · rw [if_neg hct, if_neg (fun h => (List.mem_cons.1 h).elim
            (fun e => hc e.symm) hct)]

theorem keyMapFind_isSome (m : List (List Char × Row)) (k : List Char) :
    (keyMapFind m k).isSome = true ↔ k ∈ m.map (fun p => p.1) := by
  unfold keyMapFind
  cases hf : List.find? (fun p => p.1 = k) m with
  | none =>
    rw [List.find?_eq_none] at hf
    simp only [Option.map_none', Option.isSome_none]
    constructor
    · intro h
      exact absurd h (by simp)
    · intro h
      rw [List.mem_map] at h
      obtain ⟨x, hx, he⟩ := h
      exact absurd (by simp [he]) (hf x hx)
  | some x =>
    have hx := List.find?_some hf
    have hmem := List.mem_of_find?_eq_some hf
    simp only [Option.map_some', Option.isSome_some, true_iff]
    rw [List.mem_map]
    exact ⟨x, hmem, by simpa using hx⟩

/-- Every record emitted for a key carries that key. -/
theorem emitDiffKey_key (bmap cmap : List (List Char × Row)) (k : List Char) :
    ∀ r ∈ emitDiffKey bmap cmap k, r.key = k := by
  intro r hr
  unfold emitDiffKey at hr
  cases hb : keyMapFind bmap k with
  | none =>
    cases hc : keyMapFind cmap k with
    | none =>
      rw [hb, hc] at hr
      simp at hr
    | some after =>
      rw [hb, hc] at hr
      rw [List.mem_singleton] at hr
      subst hr
      rfl
  | some before =>
    cases hc : keyMapFind cmap k with
    | none =>
      rw [hb, hc] at hr
      rw [List.mem_singleton] at hr
      subst hr
      rfl
    | some after =>
      rw [hb, hc] at hr
      rw [List.mem_filterMap] at hr
      obtain ⟨col, _, hg⟩ := hr
      by_cases h1 : col = seqColName ∨ col = editStatusColName
      · rw [if_pos h1] at hg
        simp at hg
      · rw [if_neg h1] at hg
        by_cases h2 : normalize_text (rowGet before col) ≠
            normalize_text (rowGet after col)
        · rw [if_pos h2, Option.some_inj] at hg
          subst hg
          rfl
        · rw [if_neg h2] at hg
          simp at hg

/-- In the both-sides case every emitted record is a change record. -/
theorem emitDiffKey_changed_type (bmap cmap : List (List Char × Row))
    (k : List Char) (before after : Row)
    (hb : keyMapFind bmap k = some before)
    (hc : keyMapFind cmap k = some after) :
    ∀ r ∈ emitDiffKey bmap cmap k, r.changeType = changedStr := by
  intro r hr
  unfold emitDiffKey at hr
  rw [hb, hc] at hr
  rw [List.mem_filterMap] at hr
  obtain ⟨col, _, hg⟩ := hr
  by_cases h1 : col = seqColName ∨ col = editStatusColName
  · rw [if_pos h1] at hg
    simp at hg
  · rw [if_neg h1] at hg
    by_cases h2 : normalize_text (rowGet before col) ≠
        normalize_text (rowGet after col)
    · rw [if_pos h2, Option.some_inj] at hg
      subst hg
      rfl
    · rw [if_neg h2] at hg
      simp at hg

/-- Reduction of the per-key emission when the key is on both sides. -/
theorem emitDiffKey_both (bmap cmap : List (List Char × Row)) (k : List Char)
    (before after : Row)
    (hb : keyMapFind bmap k = some before)
    (hc : keyMapFind cmap k = some after) :
    emitDiffKey bmap cmap k =
      (sortKeys (dedupKeepFirst (before.map (fun p => p.1) ++
          after.map (fun p => p.1)))).filterMap (fun col =>
        if col = seqColName ∨ col = editStatusColName then none
        else
          if normalize_text (rowGet before col) ≠
              normalize_text (rowGet after col) then
            some ⟨k, changedStr, col, normalize_text (rowGet before col),
              normalize_text (rowGet after col)⟩
          else none) := by
  unfold emitDiffKey
  rw [hb, hc]

/-- C7: for every baseline table and current table, the diff reporter
iterates the sorted union of normalized nonempty keys and emits exactly
one "added" (추가) record per key present only in the current table,
exactly one "removed" (삭제) record per key present only in the
baseline, and — for keys present in both — exactly one "changed" (변경)
record per column of the union of the two rows' columns, excluding the
sequence-number (순번) and edit-status (수정상태) columns, whose
normalized values differ, carrying the key, the column name, and the
old and new normalized values. -/
theorem claim_C7 :
    ∀ (baseline current : Table) (out : List DiffRecord),
      diff_report baseline current = some out →
      ∀ k : List Char,
        (out.filter (fun r => r.changeType = addedStr ∧ r.key = k) =
          (if (keyMapFind (tableKeyMap current) k).isSome ∧
              (keyMapFind (tableKeyMap baseline) k).isNone
           then [⟨k, addedStr, dashStr, [], rowAddedStr⟩] else []))
        ∧ (out.filter (fun r => r.changeType = removedStr ∧ r.key = k) =
          (if (keyMapFind (tableKeyMap baseline) k).isSome ∧
              (keyMapFind (tableKeyMap current) k).isNone
           then [⟨k, removedStr, dashStr, rowExistsStr, []⟩] else []))
        ∧ (∀ before after : Row,
            keyMapFind (tableKeyMap baseline) k = some before →
            keyMapFind (tableKeyMap current) k = some after →
            ∀ col : List Char,
              out.filter (fun r => r.changeType = changedStr ∧ r.key = k ∧
                  r.column = col) =
                (if (col ∈ before.map (fun p => p.1) ∨
                      col ∈ after.map (fun p => p.1))
                    ∧ ¬(col = seqColName ∨ col = editStatusColName)
                    ∧ normalize_text (rowGet before col) ≠
                        normalize_text (rowGet after col)
                 then [⟨k, changedStr, col, normalize_text (rowGet before col),
                       normalize_text (rowGet after col)⟩] else [])) := by
  intro baseline current out h k
  simp only [diff_report] at h
  split_ifs at h with hcond
  rw [Option.some_inj] at h
  subst h
  have hbm : buildKeyMap baseline.rows (tableKeyCol baseline) =
      tableKeyMap baseline := rfl
  have hcm : buildKeyMap current.rows (tableKeyCol current) =
      tableKeyMap current := rfl
  rw [hbm, hcm]
  have hknodup : (sortKeys (dedupKeepFirst
      ((tableKeyMap baseline).map (fun p => p.1) ++
       (tableKeyMap current).map (fun p => p.1)))).Nodup := by
    unfold sortKeys
    exact (stableSortBy_perm _ _).nodup_iff.2 (dedupKeepFirst_nodup _)
  have hkmem : ∀ x : List Char,
      x ∈ sortKeys (dedupKeepFirst
        ((tableKeyMap baseline).map (fun p => p.1) ++
         (tableKeyMap current).map (fun p => p.1))) ↔
      (x ∈ (tableKeyMap baseline).map (fun p => p.1) ∨
       x ∈ (tableKeyMap current).map (fun p => p.1)) := by
    intro x
    unfold sortKeys
    rw [(stableSortBy_perm _ _).mem_iff, mem_dedupKeepFirst, List.mem_append]
  have dAR : addedStr ≠ removedStr := by decide
  have dRA : removedStr ≠ addedStr := by decide
  have dAC : addedStr ≠ changedStr := by decide
  have dRC : removedStr ≠ changedStr := by decide
  refine ⟨?_, ?_, ?_⟩
  · -- added records
    rw [flatMap_filter_unique (emitDiffKey (tableKeyMap baseline)
        (tableKeyMap current))
        (fun r => decide (r.changeType = addedStr ∧ r.key = k)) k
        (fun k' r hr hp => by
          simp only [decide_eq_true_eq] at hp
          exact (emitDiffKey_key _ _ k' r hr).symm.trans hp.2)
        _ hknodup]
    by_cases hmem : k ∈ sortKeys (dedupKeepFirst
        ((tableKeyMap baseline).map (fun p => p.1) ++
         (tableKeyMap current).map (fun p => p.1)))
    · rw [if_pos hmem]
      cases hbk : keyMapFind (tableKeyMap baseline) k with
      | none =>
        cases hck : keyMapFind (tableKeyMap current) k with
        | none =>
          have : k ∉ (tableKeyMap baseline).map (fun p => p.1) := by
            rw [← keyMapFind_isSome, hbk]
            simp
          have : k ∉ (tableKeyMap current).map (fun p => p.1) := by
            rw [← keyMapFind_isSome, hck]
            simp
          unfold emitDiffKey
          rw [hbk, hck]
          simp [hbk, hck]
        | some after =>
          unfold emitDiffKey
          rw [hbk, hck]
          simp [hbk, hck]
      | some before =>
        cases hck : keyMapFind (tableKeyMap current) k with
        | none =>
          unfold emitDiffKey
          rw [hbk, hck]
          simp [hbk, hck]
          exact dRA
        | some after =>
          rw [List.filter_eq_nil_iff.2 (fun r hr hp => by
            simp only [decide_eq_true_eq] at hp
            exact dAC (hp.1.symm.trans
              (emitDiffKey_changed_type _ _ k before after hbk hck r hr)))]
          simp [hbk, hck]
    · rw [if_neg hmem]
      have hno : ¬((keyMapFind (tableKeyMap current) k).isSome = true) := by
        rw [keyMapFind_isSome]
        intro hmemc
        exact hmem ((hkmem k).2 (Or.inr hmemc))
      rw [if_neg (fun hc2 => hno hc2.1)]
  · -- removed records
    rw [flatMap_filter_unique (emitDiffKey (tableKeyMap baseline)
        (tableKeyMap current))
        (fun r => decide (r.changeType = removedStr ∧ r.key = k)) k
        (fun k' r hr hp => by
          simp only [decide_eq_true_eq] at hp
          exact (emitDiffKey_key _ _ k' r hr).symm.trans hp.2)
        _ hknodup]
    by_cases hmem : k ∈ sortKeys (dedupKeepFirst
        ((tableKeyMap baseline).map (fun p => p.1) ++
         (tableKeyMap current).map (fun p => p.1)))
    · rw [if_pos hmem]
      cases hbk : keyMapFind (tableKeyMap baseline) k with
      | none =>
        cases hck : keyMapFind (tableKeyMap current) k with
        | none =>
          unfold emitDiffKey
          rw [hbk, hck]
          simp [hbk, hck]
        | some after =>
          unfold emitDiffKey
          rw [hbk, hck]
          simp [hbk, hck, dAR]
      | some before =>
        cases hck : keyMapFind (tableKeyMap current) k with
        | none =>
          unfold emitDiffKey
          rw [hbk, hck]
          simp [hbk, hck]
        | some after =>
          rw [List.filter_eq_nil_iff.2 (fun r hr hp => by
            simp only [decide_eq_true_eq] at hp
            exact dRC (hp.1.symm.trans
              (emitDiffKey_changed_type _ _ k before after hbk hck r hr)))]
          simp [hbk, hck]
    · rw [if_neg hmem]
      have hno : ¬((keyMapFind (tableKeyMap baseline) k).isSome = true) := by
        rw [keyMapFind_isSome]
        intro hmemb
        exact hmem ((hkmem k).2 (Or.inl hmemb))
      rw [if_neg (fun hc2 => hno hc2.1)]
  · -- changed records
    intro before after hb hc col
    rw [flatMap_filter_unique (emitDiffKey (tableKeyMap baseline)
        (tableKeyMap current))
        (fun r => decide (r.changeType = changedStr ∧ r.key = k ∧
          r.column = col)) k
        (fun k' r hr hp => by
          simp only [decide_eq_true_eq] at hp
          exact (emitDiffKey_key _ _ k' r hr).symm.trans hp.2.1)
        _ hknodup]
    have hmem : k ∈ sortKeys (dedupKeepFirst
        ((tableKeyMap baseline).map (fun p => p.1) ++
         (tableKeyMap current).map (fun p => p.1))) := by
      rw [hkmem]
      left
      rw [← keyMapFind_isSome, hb]
      rfl
    rw [if_pos hmem]
    rw [emitDiffKey_both _ _ k before after hb hc]
    have hcnodup : (sortKeys (dedupKeepFirst (before.map (fun p => p.1) ++
        after.map (fun p => p.1)))).Nodup := by
      unfold sortKeys
      exact (stableSortBy_perm _ _).nodup_iff.2 (dedupKeepFirst_nodup _)
    rw [@filterMap_filter_unique (List Char) DiffRecord _
        (fun col2 => if col2 = seqColName ∨ col2 = editStatusColName then none
          else
            if normalize_text (rowGet before col2) ≠
                normalize_text (rowGet after col2) then
              some ⟨k, changedStr, col2, normalize_text (rowGet before col2),
                normalize_text (rowGet after col2)⟩
            else none)
        (fun r => decide (r.changeType = changedStr ∧ r.key = k ∧
          r.column = col)) col
        (fun c r hg => by
          dsimp only at hg
          by_cases h1 : c = seqColName ∨ c = editStatusColName
          · rw [if_pos h1] at hg
            simp at hg
          · rw [if_neg h1] at hg
            by_cases h2 : normalize_text (rowGet before c) ≠
                normalize_text (rowGet after c)
            · rw [if_pos h2, Option.some_inj] at hg
              subst hg
              simp
            · rw [if_neg h2] at hg
              simp at hg)
        _ hcnodup]
    have hcolmem : col ∈ sortKeys (dedupKeepFirst (before.map (fun p => p.1) ++
        after.map (fun p => p.1))) ↔
        (col ∈ before.map (fun p => p.1) ∨ col ∈ after.map (fun p => p.1)) := by
      unfold sortKeys
      rw [(stableSortBy_perm _ _).mem_iff, mem_dedupKeepFirst, List.mem_append]
    by_cases hcm2 : col ∈ before.map (fun p => p.1) ∨
        col ∈ after.map (fun p => p.1)
    · rw [if_pos (hcolmem.2 hcm2)]
      by_cases h1 : col = seqColName ∨ col = editStatusColName
      · rw [if_pos h1]
        rw [if_neg (fun hcc => hcc.2.1 h1)]
        rfl
      · rw [if_neg h1]
        by_cases h2 : normalize_text (rowGet before col) ≠
            normalize_text (rowGet after col)
        · rw [if_pos h2, if_pos ⟨hcm2, h1, h2⟩]
          simp
        · rw [if_neg h2, if_neg (fun hcc => h2 hcc.2.2)]
          rfl
    · rw [if_neg (fun hs => hcm2 (hcolmem.1 hs)), if_neg (fun hcc => hcm2 hcc.1)]

theorem claim_C7_witness :
    diff_report exC7Base exC7Cur = some exC7Out
    ∧ (exC7Out.filter (fun r => r.changeType = addedStr ∧ r.key = exProject) =
        [⟨exProject, addedStr, dashStr, [], rowAddedStr⟩]) := by
  have hd : diff_report exC7Base exC7Cur = some exC7Out := by decide
  refine ⟨hd, ?_⟩
  have h := (claim_C7 exC7Base exC7Cur exC7Out hd exProject).1
  rw [h]
  decide

/-! ## Helper lemmas on the normalization pipeline -/

theorem mem_removeChar {c t : Char} {l : List Char} :
    c ∈ removeChar t l ↔ c ∈ l ∧ c ≠ t := by
  simp [removeChar]

theorem removeChar_eq_self {t : Char} {l : List Char}
    (h : ∀ c ∈ l, c ≠ t) : removeChar t l = l := by
  unfold removeChar
  rw [List.filter_eq_self]
  intro c hc
  simpa using h c hc

theorem mem_replaceCRLF {l : List Char} :
    ∀ c ∈ replaceCRLF l, c ∈ l ∨ c = '\n' := by
  induction l using twoStepInduction with
  | nil => simp [replaceCRLF]
  | single c => simp [replaceCRLF]
  | cons2 c d t iht ihdt =>
    intro x hx
    rw [replaceCRLF] at hx
    split at hx
    · rcases List.mem_cons.1 hx with h | h
      · right
        exact h
      · rcases iht x h with h2 | h2
        · left
          simp [h2]
        · right
          exact h2
    · rcases List.mem_cons.1 hx with h | h
      · left
        simp [h]
      · rcases ihdt x h with h2 | h2
        · left
          exact List.mem_cons_of_mem c h2
        · right
          exact h2

theorem replaceCRLF_eq_self {l : List Char} (h : '\r' ∉ l) :
    replaceCRLF l = l := by
  induction l using twoStepInduction with
  | nil => rfl
  | single c => rfl
  | cons2 c d t iht ihdt =>
    have hc : ¬(c = '\r' ∧ d = '\n') :=
      fun hcd => h (hcd.1 ▸ List.mem_cons_self c (d :: t))
    rw [replaceCRLF, if_neg hc,
      ihdt (fun hm => h (List.mem_cons_of_mem c hm))]

theorem mem_mapChar {c src tgt : Char} {l : List Char} :
    c ∈ mapChar src tgt l → c = tgt ∨ (c ∈ l ∧ c ≠ src) := by
  intro h
  unfold mapChar at h
  rw [List.mem_map] at h
  obtain ⟨d, hd, he⟩ := h
  by_cases hds : d = src
  · left
    rw [← he, if_pos hds]
  · right
    rw [← he, if_neg hds]
    exact ⟨hd, hds⟩

theorem mapChar_eq_self {src tgt : Char} {l : List Char} (h : src ∉ l) :
    mapChar src tgt l = l := by
  unfold mapChar
  refine (List.map_congr_left ?_).trans (List.map_id _)
  intro c hc
  have hcs : c ≠ src := fun e => h (e ▸ hc)
  exact if_neg hcs

theorem dropWhile_head_not {p : Char → Bool} {l : List Char} :
    ∀ c ∈ (List.dropWhile p l).head?, p c = false := by
  induction l with
  | nil => simp
  | cons x t ih =>
    rw [List.dropWhile_cons]
    split_ifs with hx
    · exact ih
    · intro c hc
      rw [List.head?_cons, Option.mem_some_iff] at hc
      subst hc
      exact Bool.eq_false_iff.2 hx

theorem prefix_head? {l1 l2 : List Char} (h : l1 <+: l2) :
    ∀ c ∈ l1.head?, l2.head? = some c := by
  intro c hc
  obtain ⟨r, rfl⟩ := h
  cases l1 with
  | nil => simp at hc
  | cons a t =>
    rw [List.head?_cons, Option.mem_some_iff] at hc
    subst hc
    rfl

theorem pyStrip_stripped (l : List Char) : Stripped (pyStrip l) := by
  constructor
  · intro c hc
    have h2 := prefix_head?
      (List.rdropWhile_prefix isPyWs (List.dropWhile isPyWs l)) c hc
    exact dropWhile_head_not c (Option.mem_def.2 h2)
  · intro c hc
    unfold pyStrip at hc
    rw [List.rdropWhile] at hc
    rw [List.getLast?_reverse] at hc
    exact dropWhile_head_not c hc

theorem pyStrip_eq_self {l : List Char} (h : Stripped l) : pyStrip l = l := by
  unfold pyStrip
  have h1 : List.dropWhile isPyWs l = l := by
    cases l with
    | nil => rfl
    | cons c t =>
      rw [List.dropWhile_cons,
        if_neg (by simp [h.1 c (by rw [List.head?_cons]; rfl)])]
  rw [h1, List.rdropWhile_eq_self_iff]
  intro hl
  rw [Bool.not_eq_true]
  exact h.2 _ (by rw [List.getLast?_eq_getLast l hl]; rfl)

theorem pyStrip_infix_self (l : List Char) : pyStrip l <:+: l :=
  List.IsInfix.trans (List.IsPrefix.isInfix (List.rdropWhile_prefix _ _))
    (List.IsSuffix.isInfix (List.dropWhile_suffix _))

theorem mem_collapseRuns (p : Char → Bool) (l : List Char) :
    ∀ c ∈ collapseRuns p l, c = ' ' ∨ (c ∈ l ∧ p c = false) := by
  induction l with
  | nil => simp [collapseRuns]
  | cons c rest ih =>
    cases rest with
    | nil =>
      intro x hx
      rw [collapseRuns] at hx
      split at hx <;> simp_all
    | cons d t =>
      intro x hx
      rw [collapseRuns] at hx
      split at hx
      · split at hx
        · rcases ih x hx with h | h
          · left
            exact h
          · right
            exact ⟨List.mem_cons_of_mem _ h.1, h.2⟩
        · rcases List.mem_cons.1 hx with h | h
          · left
            exact h
          · rcases ih x h with h2 | h2
            · left
              exact h2
            · right
              exact ⟨List.mem_cons_of_mem _ h2.1, h2.2⟩
      · rcases List.mem_cons.1 hx with h | h
        · subst h
          right
          simp_all
        · rcases ih x h with h2 | h2
          · left
            exact h2
          · right
            exact ⟨List.mem_cons_of_mem _ h2.1, h2.2⟩

theorem collapseRuns_head? (p : Char → Bool) (l : List Char) :
    (collapseRuns p l).head? =
      l.head?.map (fun c => if p c then ' ' else c) := by
  induction l with
  | nil => rfl
  | cons c rest ih =>
    cases rest with
    | nil =>
      rw [collapseRuns]
      split_ifs with hc <;> simp [hc]
    | cons d t =>
      rw [collapseRuns]
      split_ifs with hc hd
      · rw [ih]
        simp [hc, hd]
      · simp [hc]
      · simp [hc]

theorem collapseRuns_ne_nil {p : Char → Bool} {l : List Char} (h : l ≠ []) :
    collapseRuns p l ≠ [] := by
  induction l with
  | nil => exact absurd rfl h
  | cons c rest ih =>
    cases rest with
    | nil =>
      rw [collapseRuns]
      split_ifs <;> simp
    | cons d t =>
      rw [collapseRuns]
      have hne := ih (List.cons_ne_nil d t)
      split_ifs with hc hd
      · exact hne
      · simp
      · simp

theorem getLast?_cons_of_ne_nil {x : Char} {xs : List Char} (h : xs ≠ []) :
    (x :: xs).getLast? = xs.getLast? := by
  cases xs with
  | nil => exact absurd rfl h
  | cons y t => exact List.getLast?_cons_cons

theorem collapseRuns_getLast? (p : Char → Bool) (l : List Char) :
    (collapseRuns p l).getLast? =
      l.getLast?.map (fun c => if p c then ' ' else c) := by
  induction l with
  | nil => rfl
  | cons c rest ih =>
    cases rest with
    | nil =>
      rw [collapseRuns]
      split_ifs with hc <;> simp [hc]
    | cons d t =>
      rw [collapseRuns]
      have hne : collapseRuns p (d :: t) ≠ [] :=
        collapseRuns_ne_nil (List.cons_ne_nil d t)
      split_ifs with hc hd
      · rw [ih, List.getLast?_cons_cons]
      · rw [getLast?_cons_of_ne_nil hne, ih, List.getLast?_cons_cons]
      · rw [getLast?_cons_of_ne_nil hne, ih, List.getLast?_cons_cons]

theorem chain'_collapseRuns (p : Char → Bool) (l : List Char) :
    (collapseRuns p l).Chain'
      (fun a b => ¬(p a = true ∧ p b = true)) := by
  induction l with
  | nil => simp [collapseRuns]
  | cons c rest ih =>
    cases rest with
    | nil =>
      rw [collapseRuns]
      split_ifs <;> exact List.chain'_singleton _
    | cons d t =>
      rw [collapseRuns]
      split_ifs with hc hd
      · exact ih
      · refine List.Chain'.cons' ih ?_
        intro y hy
        rw [collapseRuns_head?] at hy
        rw [List.head?_cons, Option.map_some', Option.mem_some_iff] at hy
        subst hy
        rw [if_neg (by simp [hd])]
        intro hand
        exact (by simp [hd] : ¬ p d = true) hand.2
      · refine List.Chain'.cons' ih ?_
        intro y hy
        intro hand
        exact (by simp [hc] : ¬ p c = true) hand.1

theorem collapseRuns_eq_self {p : Char → Bool} {l : List Char}
    (h1 : ∀ c ∈ l, p c = true → c = ' ')
    (h2 : l.Chain' (fun a b => ¬(p a = true ∧ p b = true))) :
    collapseRuns p l = l := by
  induction l with
  | nil => rfl
  | cons c rest ih =>
    cases rest with
    | nil =>
      rw [collapseRuns]
      split_ifs with hc
      · rw [h1 c (List.mem_singleton_self c) hc]
      · rfl
    | cons d t =>
      rw [collapseRuns]
      have hrest := ih (fun x hx hp => h1 x (List.mem_cons_of_mem c hx) hp)
        (List.Chain'.tail h2)
      split_ifs with hc hd
      · exact absurd ⟨hc, hd⟩ (List.Chain'.rel_head h2)
      · rw [hrest, h1 c (List.mem_cons_self c (d :: t)) hc]
      · rw [hrest]

theorem mem_stripQuotePair {c : Char} {l : List Char} :
    c ∈ stripQuotePair l → c ∈ l := by
  unfold stripQuotePair
  split_ifs with hq
  · intro h
    have h2 := (pyStrip_infix_self _).subset h
    have h3 := (List.dropLast_sublist _).subset h2
    exact (List.tail_suffix l).subset h3
  · exact id

theorem stripQuotePair_stripped (l : List Char) (h : Stripped l) :
    Stripped (stripQuotePair l) := by
  unfold stripQuotePair
  split_ifs with hq
  · exact pyStrip_stripped _
  · exact h

theorem stripQuotePair_stcollapsed (l : List Char) (h : STCollapsed l) :
    STCollapsed (stripQuotePair l) := by
  unfold stripQuotePair
  split_ifs with hq
  · constructor
    · intro hm
      have h2 := (pyStrip_infix_self _).subset hm
      have h3 := (List.dropLast_sublist _).subset h2
      exact h.1 ((List.tail_suffix l).subset h3)
    · refine List.Chain'.infix ?_ (pyStrip_infix_self _)
      refine List.Chain'.infix ?_ (List.IsPrefix.isInfix (List.dropLast_prefix _))
      exact List.Chain'.infix h.2 (List.IsSuffix.isInfix (List.tail_suffix l))
  · exact h

theorem isSpaceTab_isPyWs {c : Char} (h : isSpaceTab c = true) :
    isPyWs c = true := by
  unfold isSpaceTab at h
  rw [Bool.or_eq_true] at h
  rcases h with h | h <;>
    rw [decide_eq_true_eq] at h <;> subst h <;> decide

/-- The output of `normalize_text` has no leading/trailing whitespace. -/
theorem normalize_text_stripped (l : List Char) :
    Stripped (normalize_text l) := by
  unfold normalize_text
  apply stripQuotePair_stripped
  constructor
  · intro c hc
    rw [collapseRuns_head?, Option.mem_map] at hc
    obtain ⟨d, hd, he⟩ := hc
    have hdn := (pyStrip_stripped _).1 d hd
    have hst : ¬(isSpaceTab d = true) := by
      intro hsp
      rw [isSpaceTab_isPyWs hsp] at hdn
      exact Bool.true_eq_false.mp hdn
    rw [← he, if_neg hst]
    exact hdn
  · intro c hc
    rw [collapseRuns_getLast?, Option.mem_map] at hc
    obtain ⟨d, hd, he⟩ := hc
    have hdn := (pyStrip_stripped _).2 d hd
    have hst : ¬(isSpaceTab d = true) := by
      intro hsp
      rw [isSpaceTab_isPyWs hsp] at hdn
      exact Bool.true_eq_false.mp hdn
    rw [← he, if_neg hst]
    exact hdn

/-- The output of `normalize_text` has no tab and no two adjacent
space/tab characters. -/
theorem normalize_text_stcollapsed (l : List Char) :
    STCollapsed (normalize_text l) := by
  unfold normalize_text
  apply stripQuotePair_stcollapsed
  constructor
  · intro hm
    rcases mem_collapseRuns _ _ _ hm with he | ⟨_, hst⟩
    · exact absurd he (by decide)
    · exact absurd hst (by decide)
  · exact chain'_collapseRuns _ _

/-- Tracing membership through the normalization pipeline: every output
character either was introduced by a replacement or survived every
removal and replacement. -/
theorem mem_normalize_text {c : Char} {l : List Char}
    (h : c ∈ normalize_text l) :
    c = '\n' ∨ c = ' ' ∨ c = '"' ∨ c = '\'' ∨
      (c ∈ l ∧ c ≠ '﻿' ∧ c ≠ '​' ∧ c ≠ '\r' ∧ c ≠ ' ' ∧
        c ≠ '“' ∧ c ≠ '”' ∧ c ≠ '’' ∧ c ≠ '‘') := by
  unfold normalize_text at h
  have h1 := mem_stripQuotePair h
  rcases mem_collapseRuns _ _ _ h1 with he | ⟨h2, _⟩
  · right
    left
    exact he
  have h3 := (pyStrip_infix_self _).subset h2
  rcases mem_mapChar h3 with he | ⟨h4, hq4⟩
  · right
    right
    right
    left
    exact he
  rcases mem_mapChar h4 with he | ⟨h5, hq3⟩
  · right
    right
    right
    left
    exact he
  rcases mem_mapChar h5 with he | ⟨h6, hq2⟩
  · right
    right
    left
    exact he
  rcases mem_mapChar h6 with he | ⟨h7, hq1⟩
  · right
    right
    left
    exact he
  rcases mem_mapChar h7 with he | ⟨h8, hnbsp⟩
  · right
    left
    exact he
  rcases mem_mapChar h8 with he | ⟨h9, hcr⟩
  · left
    exact he
  rcases mem_replaceCRLF c h9 with h10 | he
  · rw [mem_removeChar] at h10
    obtain ⟨h11, hzw⟩ := h10
    rw [mem_removeChar] at h11
    obtain ⟨h12, hbom⟩ := h11
    exact Or.inr (Or.inr (Or.inr (Or.inr
      ⟨h12, hbom, hzw, hcr, hnbsp, hq1, hq2, hq3, hq4⟩)))
  · left
    exact he

/-- The output of `normalize_text` contains none of the characters the
pipeline removes or replaces. -/
theorem normalize_text_nobad (l : List Char) :
    NoBadChars (normalize_text l) := by
  intro c hc
  rcases mem_normalize_text hc with he | he | he | he | ⟨_, hrest⟩
  · subst he
    refine ⟨?_, ?_, ?_, ?_, ?_, ?_, ?_, ?_⟩ <;> decide
  · subst he
    refine ⟨?_, ?_, ?_, ?_, ?_, ?_, ?_, ?_⟩ <;> decide
  · subst he
    refine ⟨?_, ?_, ?_, ?_, ?_, ?_, ?_, ?_⟩ <;> decide
  · subst he
    refine ⟨?_, ?_, ?_, ?_, ?_, ?_, ?_, ?_⟩ <;> decide
  · exact hrest

/-- On a string already in normal form, every stage of `normalize_text`
before the quote-stripping step is the identity. -/
theorem normalize_eq_stripQuotePair {y : List Char} (h1 : NoBadChars y)
    (h2 : Stripped y) (h3 : STCollapsed y) :
    normalize_text y = stripQuotePair y := by
  unfold normalize_text
  have e1 : removeChar '﻿' y = y :=
    removeChar_eq_self (fun c hc => (h1 c hc).1)
  rw [e1]
  have e2 : removeChar '​' y = y :=
    removeChar_eq_self (fun c hc => (h1 c hc).2.1)
  rw [e2]
  have hcr : '\r' ∉ y := fun hm => (h1 _ hm).2.2.1 rfl
  rw [replaceCRLF_eq_self hcr]
  have e4 : mapChar '\r' '\n' y = y := mapChar_eq_self hcr
  rw [e4]
  have e5 : mapChar ' ' ' ' y = y :=
    mapChar_eq_self (fun hm => (h1 _ hm).2.2.2.1 rfl)
  rw [e5]
  have e6 : mapChar '“' '"' y = y :=
    mapChar_eq_self (fun hm => (h1 _ hm).2.2.2.2.1 rfl)
  rw [e6]
  have e7 : mapChar '”' '"' y = y :=
    mapChar_eq_self (fun hm => (h1 _ hm).2.2.2.2.2.1 rfl)
  rw [e7]
  have e8 : mapChar '’' '\'' y = y :=
    mapChar_eq_self (fun hm => (h1 _ hm).2.2.2.2.2.2.1 rfl)
  rw [e8]
  have e9 : mapChar '‘' '\'' y = y :=
    mapChar_eq_self (fun hm => (h1 _ hm).2.2.2.2.2.2.2 rfl)
  rw [e9]
  rw [pyStrip_eq_self h2]
  have hst : ∀ c ∈ y, isSpaceTab c = true → c = ' ' := by
    intro c hc hsp
    unfold isSpaceTab at hsp
    rw [Bool.or_eq_true] at hsp
    rcases hsp with hsp | hsp
    · exact decide_eq_true_eq.mp hsp
    · exact absurd (decide_eq_true_eq.mp hsp ▸ hc) h3.1
  rw [collapseRuns_eq_self hst h3.2]

/-- C5 counterexample: normalize is not idempotent.  On `""abc""` one
pass strips the outer quote pair giving `"abc"`, and a second pass
strips again, giving `abc`. -/
theorem claim_C5_counterexample :
    normalize_text (normalize_text exDoubleQuoted) ≠
      normalize_text exDoubleQuoted
    ∧ normalize_text exDoubleQuoted = exQuotedAbc
    ∧ normalize_text (normalize_text exDoubleQuoted) = exPlain := by
  refine ⟨by decide, by decide, by decide⟩

/-- C5 (amended): normalize is idempotent at every input whose
normalized form is not again enclosed in a matched quote pair (first
character equal to last, both `'` or `"`, length at least 2); at such
inputs a second pass strips one more quote layer. -/
theorem claim_C5 :
    ∀ l : List Char, quoteCondB (normalize_text l) = false →
      normalize_text (normalize_text l) = normalize_text l := by
  intro l hq
  rw [normalize_eq_stripQuotePair (normalize_text_nobad l)
    (normalize_text_stripped l) (normalize_text_stcollapsed l)]
  unfold stripQuotePair
  rw [hq]
  simp

theorem claim_C5_witness :
    quoteCondB (normalize_text exPlain) = false ∧
      normalize_text (normalize_text exPlain) = normalize_text exPlain :=
  ⟨by decide, claim_C5 exPlain (by decide)⟩

/-! ## Character-level lemmas for `canonical_key` -/

theorem toNat_ofNat_small {n : Nat} (h : n < 55296) :
    (Char.ofNat n).toNat = n := by
  unfold Char.ofNat
  rw [dif_pos (Or.inl h)]
  simp [Char.ofNatAux, Char.toNat, UInt32.toNat]

theorem pyLowerChar_cases (c : Char) :
    pyLowerChar c = c ∨
      (97 ≤ (pyLowerChar c).toNat ∧ (pyLowerChar c).toNat ≤ 122) ∨
      (1072 ≤ (pyLowerChar c).toNat ∧ (pyLowerChar c).toNat ≤ 1105) := by
  unfold pyLowerChar
  split_ifs with h1 h2 h3
  · right
    left
    rw [toNat_ofNat_small (by omega)]
    omega
  · right
    right
    rw [toNat_ofNat_small (by omega)]
    omega
  · right
    right
    rw [toNat_ofNat_small (by omega)]
    omega
  · left
    rfl

theorem pyLowerChar_fixed_of_range {c : Char}
    (h : (97 ≤ c.toNat ∧ c.toNat ≤ 122) ∨
      (1072 ≤ c.toNat ∧ c.toNat ≤ 1105)) : pyLowerChar c = c := by
  unfold pyLowerChar
  rw [if_neg (by omega), if_neg (by omega), if_neg (by omega)]

theorem nfkcChar_fixed_of_range {c : Char}
    (h : (33 ≤ c.toNat ∧ c.toNat ≤ 126) ∨
      (1072 ≤ c.toNat ∧ c.toNat ≤ 1105)) : nfkcChar c = c := by
  unfold nfkcChar
  rw [if_neg (by omega), if_neg (by omega), if_neg (by omega)]

theorem pyLowerChar_idem (c : Char) :
    pyLowerChar (pyLowerChar c) = pyLowerChar c := by
  rcases pyLowerChar_cases c with h | h | h
  · rw [h, h]
  · exact pyLowerChar_fixed_of_range (Or.inl h)
  · exact pyLowerChar_fixed_of_range (Or.inr h)

theorem pyLower_ws {c : Char} (h : isPyWs (pyLowerChar c) = true) :
    isPyWs c = true := by
  rcases pyLowerChar_cases c with he | hr | hr
  · rw [← he]
    exact h
  · unfold isPyWs at h
    simp only [Bool.or_eq_true, Bool.and_eq_true, decide_eq_true_eq] at h
    omega
  · unfold isPyWs at h
    simp only [Bool.or_eq_true, Bool.and_eq_true, decide_eq_true_eq] at h
    omega

theorem nfkcChar_cases (c : Char) :
    nfkcChar c = c ∨
      (33 ≤ (nfkcChar c).toNat ∧ (nfkcChar c).toNat ≤ 126) ∨
      nfkcChar c = ' ' := by
  unfold nfkcChar
  split_ifs with h1 h2 h3
  · right
    left
    rw [toNat_ofNat_small (by omega)]
    omega
  · right
    right
    rfl
  · right
    right
    rfl
  · left
    rfl

theorem nfkcChar_idem (c : Char) :
    nfkcChar (nfkcChar c) = nfkcChar c := by
  rcases nfkcChar_cases c with h | h | h
  · rw [h, h]
  · exact nfkcChar_fixed_of_range (Or.inl h)
  · rw [h]
    decide

theorem nfkc_pyLower {c : Char} (h : nfkcChar c = c) :
    nfkcChar (pyLowerChar c) = pyLowerChar c := by
  rcases pyLowerChar_cases c with he | hr | hr
  · rw [he]
    exact h
  · exact nfkcChar_fixed_of_range (Or.inl ⟨by omega, by omega⟩)
  · exact nfkcChar_fixed_of_range (Or.inr hr)

theorem not_bad_of_toNat {c : Char}
    (hne : c.toNat ≠ 65279 ∧ c.toNat ≠ 8203 ∧ c.toNat ≠ 13 ∧
      c.toNat ≠ 160 ∧ c.toNat ≠ 8220 ∧ c.toNat ≠ 8221 ∧
      c.toNat ≠ 8217 ∧ c.toNat ≠ 8216) :
    c ≠ '﻿' ∧ c ≠ '​' ∧ c ≠ '\r' ∧ c ≠ ' ' ∧
      c ≠ '“' ∧ c ≠ '”' ∧ c ≠ '’' ∧ c ≠ '‘' := by
  refine ⟨?_, ?_, ?_, ?_, ?_, ?_, ?_, ?_⟩
  all_goals intro e
  all_goals subst e
  · exact hne.1 rfl
  · exact hne.2.1 rfl
  · exact hne.2.2.1 rfl
  · exact hne.2.2.2.1 rfl
  · exact hne.2.2.2.2.1 rfl
  · exact hne.2.2.2.2.2.1 rfl
  · exact hne.2.2.2.2.2.2.1 rfl
  · exact hne.2.2.2.2.2.2.2 rfl

/-! ## Invariants of `canonical_key` and claim C6 -/

theorem canonical_key_stripped (l : List Char) :
    Stripped (canonical_key l) := by
  unfold canonical_key
  constructor
  · intro c hc
    rw [List.head?_map, Option.mem_map] at hc
    obtain ⟨d, hd, he⟩ := hc
    have hdn := (pyStrip_stripped _).1 d hd
    rw [← he, Bool.eq_false_iff]
    intro hws
    exact absurd (pyLower_ws hws) (by simp [hdn])
  · intro c hc
    rw [List.getLast?_map, Option.mem_map] at hc
    obtain ⟨d, hd, he⟩ := hc
    have hdn := (pyStrip_stripped _).2 d hd
    rw [← he, Bool.eq_false_iff]
    intro hws
    exact absurd (pyLower_ws hws) (by simp [hdn])

theorem chain'_pyStrip_collapse (w : List Char) :
    (pyStrip (collapseRuns isPyWs w)).Chain'
      (fun a b => ¬(isPyWs a = true ∧ isPyWs b = true)) := by
  refine List.Chain'.infix ?_ (pyStrip_infix_self _)
  exact chain'_collapseRuns isPyWs w

theorem wscollapsed_chain_map (w : List Char)
    (h : w.Chain' (fun a b => ¬(isPyWs a = true ∧ isPyWs b = true))) :
    (w.map pyLowerChar).Chain'
      (fun a b => ¬(isPyWs a = true ∧ isPyWs b = true)) := by
  rw [List.chain'_map]
  refine List.Chain'.imp ?_ h
  intro a b hab hand
  exact hab ⟨pyLower_ws hand.1, pyLower_ws hand.2⟩

theorem wscollapsed_pyStrip_collapse (u : List Char) :
    WsCollapsed ((pyStrip (collapseRuns isPyWs u)).map pyLowerChar) := by
  constructor
  · intro c hc hws
    rw [List.mem_map] at hc
    obtain ⟨d, hd, he⟩ := hc
    have hd3 := (pyStrip_infix_self _).subset hd
    rcases mem_collapseRuns _ _ _ hd3 with he2 | ⟨_, hnp⟩
    · rw [← he, he2]
      decide
    · rw [← he] at hws
      exact absurd (pyLower_ws hws) (by simp [hnp])
  · exact wscollapsed_chain_map _ (chain'_pyStrip_collapse _)

theorem canonical_key_wscollapsed (l : List Char) :
    WsCollapsed (canonical_key l) := by
  unfold canonical_key
  exact wscollapsed_pyStrip_collapse
    (mapChar '\n' ' ' ((normalize_text l).map nfkcChar))

theorem canonical_key_nfkc_fixed (l : List Char) :
    ∀ c ∈ canonical_key l, nfkcChar c = c := by
  intro c hc
  unfold canonical_key at hc
  rw [List.mem_map] at hc
  obtain ⟨d, hd, he⟩ := hc
  have hd3 := (pyStrip_infix_self _).subset hd
  have hdfix : nfkcChar d = d := by
    rcases mem_collapseRuns _ _ _ hd3 with he2 | ⟨hd4, _⟩
    · rw [he2]
      decide
    · rcases mem_mapChar hd4 with he3 | ⟨hd5, _⟩
      · rw [he3]
        decide
      · rw [List.mem_map] at hd5
        obtain ⟨e, _, he4⟩ := hd5
        rw [← he4]
        exact nfkcChar_idem e
  rw [← he]
  exact nfkc_pyLower hdfix

theorem canonical_key_lower_fixed (l : List Char) :
    ∀ c ∈ canonical_key l, pyLowerChar c = c := by
  intro c hc
  unfold canonical_key at hc
  rw [List.mem_map] at hc
  obtain ⟨d, _, he⟩ := hc
  rw [← he]
  exact pyLowerChar_idem d

theorem canonical_key_nobad (l : List Char) :
    NoBadChars (canonical_key l) := by
  intro c hc
  unfold canonical_key at hc
  rw [List.mem_map] at hc
  obtain ⟨d, hd, he⟩ := hc
  have hd3 := (pyStrip_infix_self _).subset hd
  have hdbad : d ≠ '﻿' ∧ d ≠ '​' ∧ d ≠ '\r' ∧ d ≠ ' ' ∧
      d ≠ '“' ∧ d ≠ '”' ∧ d ≠ '’' ∧ d ≠ '‘' := by
    rcases mem_collapseRuns _ _ _ hd3 with he2 | ⟨hd4, _⟩
    · rw [he2]
      decide
    · rcases mem_mapChar hd4 with he3 | ⟨hd5, _⟩
      · rw [he3]
        decide
      · rw [List.mem_map] at hd5
        obtain ⟨e, hme, he4⟩ := hd5
        have henb := normalize_text_nobad l e hme
        rcases nfkcChar_cases e with hfix | hr | hsp
        · rw [← he4, hfix]
          exact henb
        · rw [← he4]
          exact not_bad_of_toNat
            ⟨by omega, by omega, by omega, by omega, by omega, by omega,
             by omega, by omega⟩
        · rw [← he4, hsp]
          decide
  rcases pyLowerChar_cases d with hfix | hr | hr
  · rw [← he, hfix]
    exact hdbad
  · rw [← he]
    exact not_bad_of_toNat
      ⟨by omega, by omega, by omega, by omega, by omega, by omega,
       by omega, by omega⟩
  · rw [← he]
    exact not_bad_of_toNat
      ⟨by omega, by omega, by omega, by omega, by omega, by omega,
       by omega, by omega⟩

theorem stcollapsed_of_wscollapsed {l : List Char} (h : WsCollapsed l) :
    STCollapsed l := by
  constructor
  · intro hm
    exact absurd (h.1 _ hm (by decide)) (by decide)
  · refine List.Chain'.imp ?_ h.2
    intro a b hab hand
    exact hab ⟨isSpaceTab_isPyWs hand.1, isSpaceTab_isPyWs hand.2⟩

/-- On a string already in canonical form whose quote condition fails,
`canonical_key` is the identity. -/
theorem canonical_eq_self {y : List Char} (h1 : NoBadChars y)
    (h2 : Stripped y) (h3 : WsCollapsed y)
    (h4 : ∀ c ∈ y, nfkcChar c = c) (h5 : ∀ c ∈ y, pyLowerChar c = c)
    (hq : quoteCondB y = false) :
    canonical_key y = y := by
  unfold canonical_key
  have e0 : normalize_text y = y := by
    rw [normalize_eq_stripQuotePair h1 h2 (stcollapsed_of_wscollapsed h3)]
    unfold stripQuotePair
    rw [hq]
    simp
  rw [e0]
  have e1 : y.map nfkcChar = y := (List.map_congr_left h4).trans (List.map_id _)
  rw [e1]
  have hnl : '\n' ∉ y := by
    intro hm
    exact absurd (h3.1 '\n' hm (by decide)) (by decide)
  rw [mapChar_eq_self hnl]
  rw [collapseRuns_eq_self h3.1 h3.2]
  rw [pyStrip_eq_self h2]
  exact (List.map_congr_left h5).trans (List.map_id _)

/-- C6 counterexample: canonicalize is not idempotent.  On `""abc""`
one pass gives `"abc"` and a second pass strips the remaining quote
pair, giving `abc`. -/
theorem claim_C6_counterexample :
    canonical_key (canonical_key exDoubleQuoted) ≠
      canonical_key exDoubleQuoted
    ∧ canonical_key exDoubleQuoted = exQuotedAbc
    ∧ canonical_key (canonical_key exDoubleQuoted) = exPlain := by
  refine ⟨by decide, by decide, by decide⟩

/-- C6 (amended): canonicalize is idempotent at every input whose
canonical form is not again enclosed in a matched quote pair (first
character equal to last, both `'` or `"`, length at least 2); at such
inputs a second pass strips one more quote layer. -/
theorem claim_C6 :
    ∀ l : List Char, quoteCondB (canonical_key l) = false →
      canonical_key (canonical_key l) = canonical_key l := by
  intro l hq
  exact canonical_eq_self (canonical_key_nobad l) (canonical_key_stripped l)
    (canonical_key_wscollapsed l) (canonical_key_nfkc_fixed l)
    (canonical_key_lower_fixed l) hq

theorem claim_C6_witness :
    quoteCondB (canonical_key exPlain) = false ∧
      canonical_key (canonical_key exPlain) = canonical_key exPlain :=
  ⟨by decide, claim_C6 exPlain (by decide)⟩

end QAHelper
